import Mathlib

set_option maxRecDepth 100000

/-!
A shallow embedding of `src/coverage.py` (a regex-based C++ coverage
instrumenter).  Source text is modelled as `List Char`; a file is the list
of its lines (Python's `source_code.split('\n')`).  The Python regexes are
translated into executable character-list scanners that implement the exact
backtracking behaviour of the patterns used by the source (all of them are
deterministic once greediness over disjoint character classes is taken into
account; the one genuinely backtracking piece, the greedy `[^/]*` prelude of
the function pattern, is modelled by preferring the rightmost feasible start
position, which is what a greedy prelude yields).

Python's `\s` and `\w` are modelled by their ASCII meaning
(`[ \t\n\r\x0b\x0c]` and `[A-Za-z0-9_]`); the sources under test are ASCII.
-/

/-- Python `\s` (ASCII range): space, tab, newline, carriage return,
vertical tab, form feed. -/
def isPySpace (c : Char) : Bool :=
  c.toNat == 32 || c.toNat == 9 || c.toNat == 10 || c.toNat == 13 ||
    c.toNat == 11 || c.toNat == 12

/-- Python `\w` (ASCII range): letters, digits and underscore. -/
def isPyWord (c : Char) : Bool :=
  (97 ≤ c.toNat && c.toNat ≤ 122) || (65 ≤ c.toNat && c.toNat ≤ 90) ||
    (48 ≤ c.toNat && c.toNat ≤ 57) || c.toNat == 95

/-- ASCII decimal digit. -/
def isDigitC (c : Char) : Bool := 48 ≤ c.toNat && c.toNat ≤ 57

/-- The decimal digit `d` (`d < 10`) as a character. -/
def digitChar (d : Nat) : Char := Char.ofNat (48 + d)

/-- Python `str(n)`, structurally recursive on a fuel that the wrapper
`natChars` instantiates with `n` itself (enough, since the value shrinks by
a factor of ten each step); the fuel-exhausted branch is unreachable for
`n ≤ fuel`. -/
def natCharsF : Nat → Nat → List Char
  | 0, n => [digitChar (n % 10)]
  | fuel + 1, n =>
    if n < 10 then [digitChar n]
    else natCharsF fuel (n / 10) ++ [digitChar (n % 10)]

/-- Python `str(n)` for a natural number: its decimal digits. -/
def natChars (n : Nat) : List Char := natCharsF n n

/-- Python's `t in s` for strings: `t` occurs as a contiguous substring. -/
def containsSub : List Char → List Char → Bool
  | [], t => t.isEmpty
  | c :: s, t => t.isPrefixOf (c :: s) || containsSub s t

/-- Python `str.rstrip()` (whitespace): drop trailing whitespace. -/
def rstripWS : List Char → List Char
  | [] => []
  | c :: cs =>
    let r := rstripWS cs
    if r.isEmpty && isPySpace c then [] else c :: r

/-- Python `str.strip()`: drop leading and trailing whitespace. -/
def pyStrip (l : List Char) : List Char := rstripWS (l.dropWhile isPySpace)

def nocStartPat : List Char := "/*NOCOVER_START*/".data
def nocEndPat : List Char := "/*NOCOVER_END*/".data
def hdrStartPat : List Char := "===== COVERAGE TRACKING CODE =====".data
def hdrEndPat : List Char := "===== END COVERAGE TRACKING =====".data
def coverPat : List Char := "COVER(".data

/-- Word-boundary test for `\b` before a word character: the previous
character (if any) is not a word character. -/
def boundaryOK : Option Char → Bool
  | none => true
  | some p => !isPyWord p

/-- The tail `\b\w+\s+(\w+)\s*\([^)]*\)` of the function pattern, tried at
the start of `r` (the `\b` itself is checked by the caller); returns the
captured group `(\w+)`.  Greedy runs over the disjoint classes `\w`, `\s`
make this deterministic. -/
def funcTail (r : List Char) : Option (List Char) :=
  let w1 := r.takeWhile isPyWord
  let r1 := r.dropWhile isPyWord
  if w1.isEmpty then none else
  let s1 := r1.takeWhile isPySpace
  let r2 := r1.dropWhile isPySpace
  if s1.isEmpty then none else
  let w2 := r2.takeWhile isPyWord
  let r3 := r2.dropWhile isPyWord
  if w2.isEmpty then none else
  match r3.dropWhile isPySpace with
  | '(' :: r5 => if (r5.dropWhile (· != ')')).isEmpty then none else some w2
  | _ => none

/-- `re.match(r'^[^/]*\b\w+\s+(\w+)\s*\([^)]*\)', line)`: the greedy `[^/]*`
tries the longest slash-free prelude first, so the match that succeeds is
the one whose start position is as far right as possible (never past a
`/`); `prev` carries the character before the current position for `\b`. -/
def funcFind (prev : Option Char) (r : List Char) : Option (List Char) :=
  let here := if boundaryOK prev then funcTail r else none
  match r with
  | [] => here
  | c :: r' =>
    if c == '/' then here
    else
      match funcFind (some c) r' with
      | some g => some g
      | none => here

/-- One alternative of `^\s*(if|while|for|switch)\s*\(` after the leading
whitespace was dropped: keyword `w`, then `\s*`, then `(`. -/
def kwParen (w : List Char) (r : List Char) : Bool :=
  w.isPrefixOf r &&
    match (r.drop w.length).dropWhile isPySpace with
    | '(' :: _ => true
    | _ => false

/-- `re.match(r'^\s*(if|while|for|switch)\s*\(', line)`. -/
def guardMatch (l : List Char) : Bool :=
  let r := l.dropWhile isPySpace
  kwParen "if".data r || kwParen "while".data r ||
    kwParen "for".data r || kwParen "switch".data r

/-- `else\s+if\s*\(` tried at the start of `r`. -/
def elifAt (r : List Char) : Bool :=
  "else".data.isPrefixOf r &&
    (let r1 := r.drop 4
     !(r1.takeWhile isPySpace).isEmpty &&
       (let r2 := r1.dropWhile isPySpace
        "if".data.isPrefixOf r2 &&
          match (r2.drop 2).dropWhile isPySpace with
          | '(' :: _ => true
          | _ => false))

/-- `re.search(r'\belse\s+if\s*\(', line)`: some position matches. -/
def searchElif : Option Char → List Char → Bool
  | prev, [] => boundaryOK prev && elifAt []
  | prev, c :: r' => (boundaryOK prev && elifAt (c :: r')) || searchElif (some c) r'

def elifSearch (l : List Char) : Bool := searchElif none l

/-- `else\b(?!\s+if)` tried at the start of `r` (the leading `\b` is the
caller's): literal `else`, a word boundary after it, and not followed by
one-or-more spaces and `if`. -/
def elseAt (r : List Char) : Bool :=
  "else".data.isPrefixOf r &&
    (let r1 := r.drop 4
     (match r1 with
      | [] => true
      | c :: _ => !isPyWord c) &&
       !(!(r1.takeWhile isPySpace).isEmpty &&
           "if".data.isPrefixOf (r1.dropWhile isPySpace)))

/-- `re.search(r'\belse\b(?!\s+if)', line)`. -/
def searchElse : Option Char → List Char → Bool
  | prev, [] => boundaryOK prev && elseAt []
  | prev, c :: r' => (boundaryOK prev && elseAt (c :: r')) || searchElse (some c) r'

def elseSearch (l : List Char) : Bool := searchElse none l

/-- The fixed-width lookbehind `(?<!\belse\s)` at a position whose preceding
characters, nearest first, are `rev`: it fires (and blocks the match) when
they read space, `e`, `s`, `l`, `e` with a word boundary before that
`else`. -/
def lookbehindElse (rev : List Char) : Bool :=
  match rev with
  | a :: 'e' :: 's' :: 'l' :: 'e' :: rest =>
    isPySpace a &&
      (match rest with
       | [] => true
       | c :: _ => !isPyWord c)
  | _ => false

/-- `(?<!\belse\s)\bif\s*\(` tried at the current position; `rev` is the
reversed list of preceding characters. -/
def ifAt (rev : List Char) (r : List Char) : Bool :=
  boundaryOK rev.head? && !lookbehindElse rev &&
    "if".data.isPrefixOf r &&
      match (r.drop 2).dropWhile isPySpace with
      | '(' :: _ => true
      | _ => false

/-- `re.search(r'(?<!\belse\s)\bif\s*\(', line)`. -/
def searchIf : List Char → List Char → Bool
  | _, [] => false
  | rev, c :: r' => ifAt rev (c :: r') || searchIf (c :: rev) r'

def ifSearch (l : List Char) : Bool := searchIf [] l

/-- `re.match(r'^(\s*)case\s+([^:]+):', line)`: returns the two groups,
leading whitespace and the label text.  `\s+` grabs the maximal space run
of length `k`; `[^:]+` then runs to the first colon (position `p` in the
text after `case`).  When `p = k` the engine gives one space back, making
the label the single space at `k-1` (which needs `k ≥ 2`). -/
def caseParse (l : List Char) : Option (List Char × List Char) :=
  let ind := l.takeWhile isPySpace
  let r := l.dropWhile isPySpace
  if "case".data.isPrefixOf r then
    let t := r.drop 4
    let k := (t.takeWhile isPySpace).length
    let p := (t.takeWhile (· != ':')).length
    if !(t.contains ':') then none
    else if k == 0 then none
    else if k < p then some (ind, (t.drop k).take (p - k))
    else if 2 ≤ k then some (ind, (t.drop (k - 1)).take 1)
    else none
  else none

/-- `re.sub(r'[^a-zA-Z0-9_]', '_', s)`. -/
def sanitize (s : List Char) : List Char :=
  s.map (fun c => if isPyWord c then c else '_')

/-- `re.match(r'^(\s*)default\s*:', line)`: returns the leading-whitespace
group. -/
def defaultParse (l : List Char) : Option (List Char) :=
  let ind := l.takeWhile isPySpace
  let r := l.dropWhile isPySpace
  if "default".data.isPrefixOf r then
    match (r.drop 7).dropWhile isPySpace with
    | ':' :: _ => some ind
    | _ => none
  else none

/-- `line.split(':', 1)[0]`. -/
def caseSplitHead (l : List Char) : List Char := l.takeWhile (· != ':')

/-- `line.split(':', 1)[1]` (the line is known to contain a colon). -/
def caseSplitTail (l : List Char) : List Char :=
  l.drop ((l.takeWhile (· != ':')).length + 1)

/-- The source's test for a case label with a statement on the same line:
`line.split(':', 1)[1].strip()` truthy and not starting with a brace. -/
def caseInline (l : List Char) : Bool :=
  let rest := pyStrip (caseSplitTail l)
  !rest.isEmpty &&
    (match rest with
     | '{' :: _ => false
     | _ => true)

def fourSp : List Char := "    ".data
def entrySuf : List Char := "_entry".data
def elsePfx : List Char := "else".data
def ifPfx : List Char := "if".data
def casePfx : List Char := "case_".data
def defaultPfx : List Char := "default".data

/-- The probe text `COVER("<id>");`. -/
def coverCall (cid : List Char) : List Char :=
  coverPat ++ '"' :: (cid ++ "\");".data)

/-- The inline splice for a case label with a same-line statement:
`f"{parts[0]}: COVER(\"{cover_id}\"); {parts[1].strip()}"`. -/
def inlineLine (l : List Char) (cid : List Char) : List Char :=
  caseSplitHead l ++ ':' :: ' ' :: (coverCall cid ++ ' ' :: pyStrip (caseSplitTail l))

/-- The instrumenter's per-run mutable state: `self.counter` and
`self.coverage_points`. -/
structure St where
  counter : Nat
  points : List (List Char)
deriving Repr, DecidableEq

/-- `get_next_id`: increment the counter, then format
`f"{prefix}_{self.counter}"`. -/
def get_next_id (st : St) (pfx : List Char) : List Char × St :=
  (pfx ++ '_' :: natChars (st.counter + 1), { st with counter := st.counter + 1 })

/-- `find_opening_brace(start_line)`, relative to the remaining lines: the
index of the first line containing a brace among the next ten lines. -/
def findBraceAux : Nat → List (List Char) → Option Nat
  | _, [] => none
  | n, l :: ls =>
    if 10 ≤ n then none
    else if l.contains '{' then some n
    else findBraceAux (n + 1) ls

def find_opening_brace (ls : List (List Char)) : Option Nat := findBraceAux 0 ls

/-- The indentation used for a probe inserted after a brace line: the count
of leading whitespace of the next line, as spaces, when that line exists and
is not blank; four spaces otherwise. -/
def braceIndent (rest : List (List Char)) : List Char :=
  match rest with
  | [] => fourSp
  | nl :: _ =>
    if (pyStrip nl).isEmpty then fourSp
    else List.replicate (nl.takeWhile isPySpace).length ' '

/-- The construct kinds a line can be dispatched to when a brace is found
(the source's four brace-seeking branches, in their priority order). -/
inductive BKind where
  | func (fname : List Char)
  | elsif
  | els
  | iff
deriving Repr, DecidableEq

/-- Which brace-seeking branch (if any) fires for a line: the function
pattern first (suppressed by the `^\s*(if|while|for|switch)\s*\(` guard),
then `else if`, then `else`, then `if`. -/
def kindNoFunc (l : List Char) : Option BKind :=
  if elifSearch l then some BKind.elsif
  else if elseSearch l then some BKind.els
  else if ifSearch l then some BKind.iff
  else none

def lineKind (l : List Char) : Option BKind :=
  match funcFind none l with
  | some fn => if guardMatch l then kindNoFunc l else some (BKind.func fn)
  | none => kindNoFunc l

/-- One iteration of `instrument`'s main loop, at line `l` with the lines
`ls` after it: the lines appended to the output, the new NOCOVER flag, the
new state, and the lines still to process.

The source also carries a `skip_until` index, but it is unreachable dead
code: `skip_until` is only ever assigned `brace_line + 1` at the same
moment `i` is assigned `brace_line + 1`, and `i` never decreases, so
`i < skip_until` never holds; it is therefore omitted here.  The four
brace-seeking branches all call `find_opening_brace(i)` with the same `i`,
so the lookup is hoisted; a branch whose pattern matches but whose brace
lookup fails falls through to the case/default/plain handling exactly as in
the source. -/
def instrStep (noc : Bool) (st : St) (l : List Char) (ls : List (List Char)) :
    List (List Char) × Bool × St × List (List Char) :=
  if containsSub l nocStartPat then ([l], true, st, ls)
  else if containsSub l nocEndPat then ([l], false, st, ls)
  else if noc then ([l], noc, st, ls)
  else if containsSub l hdrStartPat then
    let pre := (l :: ls).takeWhile (fun x => !containsSub x hdrEndPat)
    match (l :: ls).drop pre.length with
    | [] => (pre, noc, st, [])
    | e :: rest' => (pre ++ [e], noc, st, rest')
  else if containsSub l coverPat then ([l], noc, st, ls)
  else
    match find_opening_brace (l :: ls), lineKind l with
    | some k, some bk =>
      let seg := (l :: ls).take (k + 1)
      let rest := (l :: ls).drop (k + 1)
      let cidSt :=
        match bk with
        | BKind.func fn => (fn ++ entrySuf, st)
        | BKind.elsif => get_next_id st elsePfx
        | BKind.els => get_next_id st elsePfx
        | BKind.iff => get_next_id st ifPfx
      let cid := cidSt.1
      let st2 : St := { cidSt.2 with points := cidSt.2.points ++ [cid] }
      (seg ++ [braceIndent rest ++ coverCall cid], noc, st2, rest)
    | _, _ =>
      match caseParse l with
      | some (ind, lbl) =>
        let cidSt := get_next_id st (casePfx ++ sanitize (pyStrip lbl))
        let cid := cidSt.1
        let st2 : St := { cidSt.2 with points := cidSt.2.points ++ [cid] }
        if caseInline l then ([inlineLine l cid], noc, st2, ls)
        else ([l, (ind ++ fourSp) ++ coverCall cid], noc, st2, ls)
      | none =>
        match defaultParse l with
        | some ind =>
          let cidSt := get_next_id st defaultPfx
          let cid := cidSt.1
          let st2 : St := { cidSt.2 with points := cidSt.2.points ++ [cid] }
          ([l, (ind ++ fourSp) ++ coverCall cid], noc, st2, ls)
        | none => ([l], noc, st, ls)

/-- `instrument`'s main loop, structurally recursive on a fuel that the
wrapper `instrGo` instantiates with the number of remaining lines (enough,
since every iteration consumes at least one line: `instrStep_rest_le`); the
fuel-exhausted branch is unreachable for `rem.length ≤ fuel`. -/
def instrGoF : Nat → Bool → St → List (List Char) → List (List Char) × St
  | _, _, st, [] => ([], st)
  | 0, _, st, rem => (rem, st)
  | fuel + 1, noc, st, l :: ls =>
    let s := instrStep noc st l ls
    let r := instrGoF fuel s.2.1 s.2.2.1 s.2.2.2
    (s.1 ++ r.1, r.2)

/-- `SimpleCoverageInstrumenter.instrument`'s main loop over the remaining
lines. -/
def instrGo (noc : Bool) (st : St) (rem : List (List Char)) : List (List Char) × St :=
  instrGoF rem.length noc st rem

/-- Python `split('\n')`, structurally recursive on a fuel that the wrapper
`splitNl` instantiates with the text's length (enough, since each step
consumes at least the newline); with fuel `0` the text is empty and the two
branches agree. -/
def splitNlF : Nat → List Char → List (List Char)
  | 0, s => [s.takeWhile (· != '\n')]
  | fuel + 1, s =>
    match s.dropWhile (· != '\n') with
    | [] => [s.takeWhile (· != '\n')]
    | _ :: rest => s.takeWhile (· != '\n') :: splitNlF fuel rest

/-- Python `source_code.split('\n')`. -/
def splitNl (s : List Char) : List (List Char) := splitNlF s.length s

/-- Python `'\n'.join(lines)`. -/
def joinNl : List (List Char) → List Char
  | [] => []
  | [l] => l
  | l :: ls => l ++ '\n' :: joinNl ls

/-- The trailing-blank-line pop loop at the end of `remove_coverage`:
`while cleaned_lines and cleaned_lines[-1].strip() == '': pop()`. -/
def popTrail : List (List Char) → List (List Char)
  | [] => []
  | l :: ls =>
    let r := popTrail ls
    if r.isEmpty && (pyStrip l).isEmpty then [] else l :: r

/-- `re.match(r'^\s*COVER\([^)]+\);\s*$', line)`: a standalone probe
line. -/
def standaloneCover (l : List Char) : Bool :=
  let r := l.dropWhile isPySpace
  coverPat.isPrefixOf r &&
    (let r1 := r.drop 6
     !(r1.takeWhile (· != ')')).isEmpty &&
       match r1.dropWhile (· != ')') with
       | ')' :: ';' :: rest => rest.all isPySpace
       | _ => false)

/-- A match of `\s*COVER\([^)]+\);\s*` anchored at the head of `l`, as its
length: maximal leading whitespace, `COVER(`, a nonempty run of
non-`)` characters, `);`, then maximal trailing whitespace. -/
def matchCoverLen (l : List Char) : Option Nat :=
  if coverPat.isPrefixOf (l.dropWhile isPySpace) then
    if ((l.dropWhile isPySpace).drop 6).takeWhile (· != ')') = [] then none
    else
      match ((l.dropWhile isPySpace).drop 6).dropWhile (· != ')') with
      | ')' :: ';' :: rest =>
        some ((l.takeWhile isPySpace).length + 6 +
          (((l.dropWhile isPySpace).drop 6).takeWhile (· != ')')).length + 2 +
          (rest.takeWhile isPySpace).length)
      | _ => none
  else none

/-- `re.sub(r'\s*COVER\([^)]+\);\s*', '', line)`, structurally recursive on
a fuel that the wrapper `subCover` instantiates with the line's length
(enough, since each step consumes at least one character:
`matchCoverLen_pos`); with fuel `0` the line is empty and the branches
agree. -/
def subCoverF : Nat → List Char → List Char
  | 0, l => l
  | fuel + 1, l =>
    match l with
    | [] => []
    | c :: l' =>
      match matchCoverLen (c :: l') with
      | some k => subCoverF fuel ((c :: l').drop k)
      | none => c :: subCoverF fuel l'

/-- The inline-probe erasure: scan left to right, removing each leftmost
match. -/
def subCover (l : List Char) : List Char := subCoverF l.length l

/-- `remove_coverage`'s per-line loop, carrying the `in_coverage_header`
flag. -/
def remGo : Bool → List (List Char) → List (List Char)
  | _, [] => []
  | inHdr, l :: ls =>
    if containsSub l hdrStartPat then remGo true ls
    else if containsSub l hdrEndPat then remGo false ls
    else if inHdr then remGo inHdr ls
    else if containsSub l coverPat then
      if standaloneCover l then remGo inHdr ls
      else subCover l :: remGo inHdr ls
    else l :: remGo inHdr ls

/-- `remove_coverage(source_code)`. -/
def remove_coverage (s : List Char) : List Char :=
  joinNl (popTrail (remGo false (splitNl s)))

/-- One full `instrument` run from the initial state (counter 0, no
points): the output lines and the final state. -/
def instrumentRun (s : List Char) : List (List Char) × St :=
  instrGo false ⟨0, []⟩ (splitNl s)

/-- `SimpleCoverageInstrumenter(s).instrument()` as a string
transformation. -/
def instrument (s : List Char) : List Char := joinNl (instrumentRun s).1

/-- The `coverage_points` registry after instrumenting `s`. -/
def coveragePoints (s : List Char) : List (List Char) := (instrumentRun s).2.points

/-- The id counter after instrumenting `s`. -/
def counterAfter (s : List Char) : Nat := (instrumentRun s).2.counter

/-- Python's string order: lexicographic by code point. -/
def leStr : List Char → List Char → Bool
  | [], _ => true
  | _ :: _, [] => false
  | a :: as, b :: bs => if a == b then leStr as bs else decide (a.toNat < b.toNat)

def insertStr (x : List Char) : List (List Char) → List (List Char)
  | [] => [x]
  | y :: ys => if leStr y x then y :: insertStr x ys else x :: y :: ys

/-- Python `sorted(strings)`.  Any comparison sort agrees with Python's on
lists of strings: elements that compare equal are identical strings, so the
sorted list is unique. -/
def pySorted : List (List Char) → List (List Char)
  | [] => []
  | x :: xs => insertStr x (pySorted xs)

/-- `f'"{p}"'`: the id in double quotes. -/
def quoteId (p : List Char) : List Char := '"' :: (p ++ ['"'])

/-- Python `', '.join(xs)`. -/
def joinCommaSp : List (List Char) → List Char
  | [] => []
  | [x] => x
  | x :: xs => x ++ ',' :: ' ' :: joinCommaSp xs

/-- The fixed text of the generated header before the sorted id list. -/
def hdrPartA : List Char :=
  ("// ===== COVERAGE TRACKING CODE =====\n#include <iostream>\n" ++
   "#include <unordered_set>\n#include <string>\n#include <algorithm>\n" ++
   "#include <vector>\n\n" ++
   "// Global set of uncovered points - starts with all points\n" ++
   "std::unordered_set<std::string> __uncovered_points = \x7b").data

/-- The fixed text between the id list and the total count. -/
def hdrPartB : List Char :=
  ("\x7d;\n\n// Total number of coverage points\n" ++
   "const size_t __total_points = ").data

/-- The fixed text of the generated header after the total count. -/
def hdrPartC : List Char :=
  (";\n\n// Function to mark coverage - removes from uncovered set\n" ++
   "void COVER(const std::string& point) \x7b\n" ++
   "    __uncovered_points.erase(point);\n\x7d\n\n" ++
   "// Function to print coverage report\n" ++
   "void print_coverage_report() \x7b\n" ++
   "    size_t covered_count = __total_points - __uncovered_points.size();\n\n" ++
   "    std::cout << \"\\n===== COVERAGE REPORT =====\\n\";\n" ++
   "    std::cout << \"Total coverage points: \" << __total_points << \"\\n\";\n" ++
   "    std::cout << \"Points covered: \" << covered_count << \"\\n\";\n" ++
   "    std::cout << \"Coverage: \" << (100.0 * covered_count / __total_points) << \"%\\n\\n\";\n\n" ++
   "    if (__uncovered_points.empty()) \x7b\n" ++
   "        std::cout << \"✓ All paths covered!\\n\";\n" ++
   "    \x7d else \x7b\n" ++
   "        std::cout << \"Uncovered points (alphabetical):\\n\";\n" ++
   "        // Sort uncovered points for display\n" ++
   "        std::vector<std::string> uncovered_sorted(__uncovered_points.begin(), __uncovered_points.end());\n" ++
   "        std::sort(uncovered_sorted.begin(), uncovered_sorted.end());\n" ++
   "        for (const auto& point : uncovered_sorted) \x7b\n" ++
   "            std::cout << \"  ✗ \" << point << \"\\n\";\n" ++
   "        \x7d\n    \x7d\n\x7d\n\n" ++
   "// Automatically print report at program exit\n" ++
   "struct CoverageReporter \x7b\n" ++
   "    ~CoverageReporter() \x7b\n" ++
   "        print_coverage_report();\n" ++
   "    \x7d\n\x7d;\nCoverageReporter __coverage_reporter;\n\n" ++
   "// ===== END COVERAGE TRACKING =====\n\n").data

/-- `generate_coverage_header`: the tracking prologue for the registered
coverage points (sorted alphabetically, quoted, comma-joined), with
`__total_points` set to their count. -/
def generate_coverage_header (points : List (List Char)) : List Char :=
  hdrPartA ++ joinCommaSp ((pySorted points).map quoteId) ++ hdrPartB ++
    natChars points.length ++ hdrPartC

/-- The number of positions of `s` at which `t` occurs as a substring (for
nonempty `t`): the count of probe calls uses `t = "COVER("`. -/
def countOccur : List Char → List Char → Nat
  | [], _ => 0
  | c :: s, t => (if t.isPrefixOf (c :: s) then 1 else 0) + countOccur s t

/-- Does a line's last character exist and read as a decimal digit?  The
counter-drawn ids (`if`/`else`/`case`/`default`) end in the counter's
digits; function-entry ids end in `..._entry`. -/
def endsDigit (l : List Char) : Bool :=
  match l.getLast? with
  | some c => isDigitC c
  | none => false

/-- The decimal value of a digit string (left fold); inverse of `natChars`,
used to show distinct counters give distinct id texts. -/
def valNat (l : List Char) : Nat :=
  l.foldl (fun a c => 10 * a + (c.toNat - 48)) 0

/-- Modelled from the spec: the id shape `"{stem}_{n}"` claimed by §3's
naming scheme, whose final component is the decimal of a counter value
(the spec's `{function-name|global}_{n}` and `{kind}_{label}_{n}` are both
of this shape). -/
def specCounterId (id : List Char) : Prop :=
  ∃ stem n, id = stem ++ '_' :: natChars n

/-- A clean line in the sense of the round-trip contract: it contains
neither tracking-prologue marker nor any `COVER(` call. -/
def cleanLine (l : List Char) : Bool :=
  !containsSub l hdrStartPat && !containsSub l hdrEndPat && !containsSub l coverPat

/-- Does the case branch take its inline-splice path on this line (a case
label followed on the same line by a non-brace statement)? -/
def inlineCasePath (l : List Char) : Bool :=
  (caseParse l).isSome && caseInline l

/-- The maximal all-digit suffix of an id; for a counter-drawn id
`"{prefix}_{n}"` this is exactly the decimal of `n`, since the underscore
before it is not a digit. -/
def trailingDigits (l : List Char) : List Char :=
  (l.reverse.takeWhile isDigitC).reverse

/-- The id shapes the instrumenter actually registers, with counter values
bounded by `n`: `"{fname}_entry"` for function entries (no counter), and
`"else_k"`, `"if_k"`, `"default_k"`, `"case_{label}_k"` for the
counter-drawn points. -/
def idFormOK (n : Nat) (id : List Char) : Prop :=
  (∃ fn, fn ≠ [] ∧ (∀ c ∈ fn, isPyWord c = true) ∧ id = fn ++ entrySuf) ∨
  (∃ k, 1 ≤ k ∧ k ≤ n ∧
    (id = elsePfx ++ '_' :: natChars k ∨ id = ifPfx ++ '_' :: natChars k ∨
     id = defaultPfx ++ '_' :: natChars k ∨
     ∃ v, (∀ c ∈ v, isPyWord c = true) ∧ id = (casePfx ++ v) ++ '_' :: natChars k))

/-- The registry invariant maintained by the loop: the digit-ending ids, in
registration order, carry exactly the counter values `1, …, counter` as
their trailing digits, and every registered id is of one of the shapes the
code produces. -/
def FullInv (st : St) : Prop :=
  ((st.points.filter endsDigit).map trailingDigits =
      (List.range' 1 st.counter).map natChars) ∧
    ∀ id ∈ st.points, idFormOK st.counter id

/-! ## Basic list facts -/

theorem lengthTakeWhileLe {α : Type} (p : α → Bool) (l : List α) :
    (l.takeWhile p).length ≤ l.length := by
  induction l with
  | nil => simp
  | cons a l ih =>
    rw [List.takeWhile_cons]
    split
    · simpa using ih
    · simp

theorem lengthDropWhileLe {α : Type} (p : α → Bool) (l : List α) :
    (l.dropWhile p).length ≤ l.length := by
  induction l with
  | nil => simp
  | cons a l ih =>
    rw [List.dropWhile_cons]
    split
    · exact Nat.le_succ_of_le ih
    · simp

/-- Every loop iteration consumes at least one line: the lines left behind
by a step are no more than those after the current one. -/
theorem instrStep_rest_le (noc : Bool) (st : St) (l : List Char)
    (ls : List (List Char)) : (instrStep noc st l ls).2.2.2.length ≤ ls.length := by
  unfold instrStep
  split
  · simp
  split
  · simp
  split
  · simp
  split
  · cases h : (l :: ls).drop
        ((List.takeWhile (fun x => !containsSub x hdrEndPat) (l :: ls)).length) with
    | nil => simp [h]
    | cons e rest' =>
      have hlen := congrArg List.length h
      simp only [List.length_drop, List.length_cons] at hlen
      simp only [h, List.length_cons]
      omega
  split
  · simp
  split
  · rename_i k bk hk hbk
    simp only []
    have hdk : (l :: ls).drop (k + 1) = ls.drop k := by simp
    rw [hdk]
    simpa using List.length_drop_le k ls
  · split
    · rename_i ind lbl hcase
      split <;> simp
    · split <;> simp

/-- An anchored probe match is at least one character long. -/
theorem matchCoverLen_pos (l : List Char) (k : Nat)
    (h : matchCoverLen l = some k) : 1 ≤ k := by
  unfold matchCoverLen at h
  split at h
  · split at h
    · exact absurd h (by simp)
    · split at h
      · simp only [Option.some.injEq] at h
        omega
      · exact absurd h (by simp)
  · exact absurd h (by simp)

/-! ## Decimal rendering facts -/

theorem digitChar_isDigit {d : Nat} (h : d < 10) : isDigitC (digitChar d) = true := by
  interval_cases d <;> decide

theorem digitChar_toNat {d : Nat} (h : d < 10) : (digitChar d).toNat = 48 + d := by
  interval_cases d <;> decide

theorem natCharsF_ne_nil (fuel n : Nat) : natCharsF fuel n ≠ [] := by
  cases fuel with
  | zero => simp [natCharsF]
  | succ fuel =>
    rw [natCharsF]
    split <;> simp

theorem natCharsF_getLast (fuel n : Nat) :
    (natCharsF fuel n).getLast? = some (digitChar (n % 10)) := by
  cases fuel with
  | zero => simp [natCharsF]
  | succ fuel =>
    rw [natCharsF]
    split
    · rename_i h
      rw [Nat.mod_eq_of_lt h]
      simp
    · simp

theorem natCharsF_digits (fuel : Nat) : ∀ n, ∀ c ∈ natCharsF fuel n, isDigitC c = true := by
  induction fuel with
  | zero =>
    intro n c hc
    simp only [natCharsF, List.mem_singleton] at hc
    subst hc
    exact digitChar_isDigit (Nat.mod_lt _ (by omega))
  | succ fuel ih =>
    intro n c hc
    rw [natCharsF] at hc
    split at hc
    · rename_i h
      simp only [List.mem_singleton] at hc
      subst hc
      exact digitChar_isDigit h
    · rename_i h
      rcases List.mem_append.mp hc with h1 | h1
      · exact ih _ c h1
      · simp only [List.mem_singleton] at h1
        subst h1
        exact digitChar_isDigit (Nat.mod_lt _ (by omega))

theorem natChars_ne_nil (n : Nat) : natChars n ≠ [] := natCharsF_ne_nil n n

theorem natChars_getLast (n : Nat) :
    (natChars n).getLast? = some (digitChar (n % 10)) := natCharsF_getLast n n

theorem natChars_digits (n : Nat) : ∀ c ∈ natChars n, isDigitC c = true :=
  natCharsF_digits n n

theorem valNat_append_digit (l : List Char) (c : Char) :
    valNat (l ++ [c]) = 10 * valNat l + (c.toNat - 48) := by
  simp [valNat, List.foldl_append]

theorem valNat_natCharsF (fuel : Nat) : ∀ n, n ≤ fuel → valNat (natCharsF fuel n) = n := by
  induction fuel with
  | zero =>
    intro n hn
    have : n = 0 := by omega
    subst this
    simp only [natCharsF]
    decide
  | succ fuel ih =>
    intro n hn
    rw [natCharsF]
    split
    · rename_i h
      simp [valNat, digitChar_toNat h]
    · rename_i h
      push_neg at h
      rw [valNat_append_digit, ih (n / 10) (by omega),
        digitChar_toNat (Nat.mod_lt _ (by omega))]
      omega

theorem valNat_natChars (n : Nat) : valNat (natChars n) = n :=
  valNat_natCharsF n n le_rfl

theorem natChars_inj {a b : Nat} (h : natChars a = natChars b) : a = b := by
  have ha := valNat_natChars a
  have hb := valNat_natChars b
  rw [h, hb] at ha
  omega

/-- An id of the spec's `"{stem}_{n}"` shape ends in a decimal digit. -/
theorem specCounterId_endsDigit {id : List Char} (h : specCounterId id) :
    endsDigit id = true := by
  obtain ⟨stem, n, rfl⟩ := h
  unfold endsDigit
  have h1 : (stem ++ '_' :: natChars n).getLast? = ('_' :: natChars n).getLast? :=
    List.getLast?_append_of_ne_nil _ (by simp)
  have h2 : ('_' :: natChars n).getLast? = (natChars n).getLast? := by
    have h3 : (['_'] ++ natChars n).getLast? = (natChars n).getLast? :=
      List.getLast?_append_of_ne_nil _ (natChars_ne_nil n)
    simpa using h3
  rw [h1, h2, natChars_getLast]
  exact digitChar_isDigit (Nat.mod_lt _ (by omega))

/-! ## Concrete counterexamples and concrete amended facts -/

/-- C1 counterexample: on the clean one-line source `case 1: a();` the
round trip fails even after trailing-blank normalization — the inline case
splice rewrites the label line to `case 1: COVER("case_1_1"); a();`, and
removal strips ` COVER("case_1_1"); ` together with its surrounding
whitespace, yielding `case 1:a();` instead of `case 1: a();`. -/
theorem c1_counterexample :
    remove_coverage (instrument ("case 1: a();".data)) ≠
        joinNl (popTrail (splitNl ("case 1: a();".data))) ∧
      remove_coverage (instrument ("case 1: a();".data)) = "case 1:a();".data := by
  constructor
  · decide
  · decide

/-- C2 counterexample: two same-named function definitions both register
the id `f_entry`, so the registry of one run holds the same id twice. -/
theorem c2_counterexample :
    ¬ (coveragePoints ("int f(int a) \x7b\n\x7d\nint f(int b) \x7b\n\x7d".data)).Nodup := by
  decide

/-- C3 counterexample: the one-line scenario-A input does not yield 3
coverage points. -/
theorem c3_counterexample :
    ¬ (coveragePoints ("int f(){ if (x) { y(); } else { z(); } }".data)).length = 3 := by
  decide

/-- C3 amended: on the scenario-A one-liner the instrumenter registers
exactly one point, the function entry `f_entry`, and inserts exactly one
probe line; the `if` and `else` on the same line are skipped because
processing resumes after the brace line. -/
theorem c3_scenarioA :
    instrumentRun ("int f(){ if (x) { y(); } else { z(); } }".data) =
      (["int f(){ if (x) { y(); } else { z(); } }".data,
        "    COVER(\"f_entry\");".data],
       ⟨0, ["f_entry".data]⟩) := by
  decide

/-- C4 counterexample: suppression fails on both sides.  Instrument side:
when a preceding construct's brace segment swallows the `/*NOCOVER_START*/`
line — the function branch copies all lines up to its opening brace without
ever setting the suppression flag — a construct lexically inside the span is
still instrumented: `if_1` is registered and its probe `COVER("if_1");` is
inserted between the markers, so the span is neither skipped nor left
verbatim.  Removal side: `remove_coverage` ignores the markers and deletes a
probe line lying inside a span. -/
theorem c4_counterexample :
    coveragePoints
        ("int f()\n/*NOCOVER_START*/\n\x7b\nif (y) \x7b\nz\n/*NOCOVER_END*/".data)
      = ["f_entry".data, "if_1".data] ∧
    instrument
        ("int f()\n/*NOCOVER_START*/\n\x7b\nif (y) \x7b\nz\n/*NOCOVER_END*/".data)
      = ("int f()\n/*NOCOVER_START*/\n\x7b\nCOVER(\"f_entry\");\nif (y) \x7b\n" ++
          "COVER(\"if_1\");\nz\n/*NOCOVER_END*/").data ∧
    remove_coverage ("/*NOCOVER_START*/\n    COVER(\"x\");\n/*NOCOVER_END*/".data) =
        "/*NOCOVER_START*/\n/*NOCOVER_END*/".data ∧
      remove_coverage ("/*NOCOVER_START*/\n    COVER(\"x\");\n/*NOCOVER_END*/".data) ≠
        "/*NOCOVER_START*/\n    COVER(\"x\");\n/*NOCOVER_END*/".data := by
  refine ⟨by decide, by decide, by decide, by decide⟩

/-- C5 counterexample: the prologue generated with zero registered points
contains no "no coverage points" message anywhere. -/
theorem c5_counterexample :
    containsSub (generate_coverage_header []) ("no coverage points".data) = false := by
  decide

/-- C5 amended: with zero registered points the generated report still
contains the unguarded percentage computation
`100.0 * covered_count / __total_points` while `__total_points` is `0` —
the generated C++ divides by zero instead of printing a guard message. -/
theorem c5_zero_total_divides :
    containsSub (generate_coverage_header [])
        ("100.0 * covered_count / __total_points".data) = true ∧
      containsSub (generate_coverage_header [])
        ("const size_t __total_points = 0;".data) = true := by
  constructor
  · decide
  · decide

/-- C6 counterexample: a function-entry id has the shape `g_entry`, which
is not of the spec's `"{stem}_{n}"` counter-drawn shape (it does not end in
a decimal digit). -/
theorem c6_counterexample :
    coveragePoints ("int g(int x) \x7b\n\x7d".data) = ["g_entry".data] ∧
      ¬ specCounterId ("g_entry".data) := by
  constructor
  · decide
  · intro h
    have := specCounterId_endsDigit h
    exact absurd this (by decide)

/-- C7 counterexample: after instrumenting two function definitions the
counter is still 0 while two points are registered — function-entry
registration bypasses `get_next_id`. -/
theorem c7_counterexample :
    counterAfter ("int f(int a) \x7b\n\x7d\nint f(int b) \x7b\n\x7d".data) = 0 ∧
      ¬ counterAfter ("int f(int a) \x7b\n\x7d\nint f(int b) \x7b\n\x7d".data) =
          (coveragePoints ("int f(int a) \x7b\n\x7d\nint f(int b) \x7b\n\x7d".data)).length := by
  constructor
  · decide
  · decide

/-- C8 counterexample: an input that already contains a probe call is
copied through, so the instrumented output holds one `COVER(` occurrence
while zero points were registered in the run. -/
theorem c8_counterexample :
    countOccur (instrument ("COVER(\"x\");".data)) coverPat = 1 ∧
      ¬ countOccur (instrument ("COVER(\"x\");".data)) coverPat =
          (coveragePoints ("COVER(\"x\");".data)).length := by
  constructor
  · decide
  · decide

/-- C9 counterexample: a line containing an `else if` construct whose
opening brace is missing from the ten-line window produces zero coverage
points, not exactly one. -/
theorem c9_counterexample :
    elifSearch ("else if (x)".data) = true ∧
      coveragePoints ("else if (x)".data) = [] := by
  constructor
  · decide
  · decide

/-- C10 counterexample: when the tracking-code start marker is reached
inside a NOCOVER span, the header-block copy is never entered, so a later
line lying between the two tracking markers (`case 1: a();` here) is
instrumented rather than copied verbatim, and a point is registered from
it. -/
theorem c10_counterexample :
    containsSub ("x ===== COVERAGE TRACKING CODE =====".data) hdrStartPat = true ∧
    containsSub ("y ===== END COVERAGE TRACKING =====".data) hdrEndPat = true ∧
    instrumentRun (("/*NOCOVER_START*/\nx ===== COVERAGE TRACKING CODE =====\n" ++
        "/*NOCOVER_END*/\ncase 1: a();\ny ===== END COVERAGE TRACKING =====").data) =
      (["/*NOCOVER_START*/".data,
        "x ===== COVERAGE TRACKING CODE =====".data,
        "/*NOCOVER_END*/".data,
        "case 1: COVER(\"case_1_1\"); a();".data,
        "y ===== END COVERAGE TRACKING =====".data],
       ⟨1, ["case_1_1".data]⟩) := by
  refine ⟨by decide, by decide, by decide⟩

/-! ## Substring and character-run facts -/

theorem containsSub_of_parts (a t b : List Char) :
    containsSub (a ++ t ++ b) t = true := by
  induction a with
  | nil =>
    cases t with
    | nil =>
      induction b with
      | nil => rfl
      | cons c b ih => simpa [containsSub] using ih
    | cons c t' =>
      simp only [List.nil_append, containsSub, List.cons_append, Bool.or_eq_true]
      left
      rw [List.isPrefixOf_iff_prefix]
      exact List.prefix_append _ _
  | cons c a' ih =>
    simpa [containsSub] using Or.inr ih

theorem not_containsSub_of_missing {s t : List Char} (c : Char)
    (hct : c ∈ t) (hcs : c ∉ s) : containsSub s t = false := by
  induction s with
  | nil =>
    cases t with
    | nil => exact absurd hct (by simp)
    | cons d t' => rfl
  | cons d s' ih =>
    simp only [containsSub, Bool.or_eq_false_iff]
    constructor
    · rw [Bool.eq_false_iff]
      intro hp
      rw [List.isPrefixOf_iff_prefix] at hp
      exact absurd (hp.subset hct) hcs
    · exact ih (fun hmem => hcs (List.mem_cons_of_mem d hmem))

theorem takeWhile_append_all {p : Char → Bool} (a b : List Char)
    (h : ∀ c ∈ a, p c = true) :
    (a ++ b).takeWhile p = a ++ b.takeWhile p := by
  induction a with
  | nil => simp
  | cons c a' ih =>
    have hc := h c (by simp)
    simp only [List.cons_append, List.takeWhile_cons, hc, if_true]
    rw [ih (fun x hx => h x (List.mem_cons_of_mem c hx))]

theorem dropWhile_append_all {p : Char → Bool} (a b : List Char)
    (h : ∀ c ∈ a, p c = true) :
    (a ++ b).dropWhile p = b.dropWhile p := by
  induction a with
  | nil => simp
  | cons c a' ih =>
    have hc := h c (by simp)
    simp only [List.cons_append, List.dropWhile_cons, hc, if_true]
    exact ih (fun x hx => h x (List.mem_cons_of_mem c hx))

theorem takeWhile_cons_of_pos {p : Char → Bool} {c : Char} (l : List Char)
    (h : p c = true) : (c :: l).takeWhile p = c :: l.takeWhile p := by
  simp [List.takeWhile_cons, h]

theorem takeWhile_cons_of_neg {p : Char → Bool} {c : Char} (l : List Char)
    (h : p c = false) : (c :: l).takeWhile p = [] := by
  simp [List.takeWhile_cons, h]

theorem dropWhile_cons_of_neg {p : Char → Bool} {c : Char} (l : List Char)
    (h : p c = false) : (c :: l).dropWhile p = c :: l := by
  simp [List.dropWhile_cons, h]

theorem rstripWS_subset (l : List Char) : rstripWS l ⊆ l := by
  induction l with
  | nil => simp [rstripWS]
  | cons c cs ih =>
    rw [rstripWS]
    split
    · simp
    · exact List.cons_subset_cons c ih

theorem pyStrip_subset (l : List Char) : pyStrip l ⊆ l := by
  intro a ha
  exact (List.dropWhile_suffix isPySpace).subset (rstripWS_subset _ ha)

/-! ## Word-character facts about the generated ids -/

theorem word_not_space {c : Char} (h : isPyWord c = true) : isPySpace c = false := by
  unfold isPyWord at h
  unfold isPySpace
  simp only [Bool.or_eq_true, Bool.and_eq_true, decide_eq_true_eq, beq_iff_eq] at h
  simp only [Bool.or_eq_false_iff, beq_eq_false_iff_ne, ne_eq]
  omega

theorem word_ne {c d : Char} (h : isPyWord c = true) (hd : isPyWord d = false) :
    c ≠ d := by
  intro rfl'
  rw [rfl'] at h
  rw [h] at hd
  exact absurd hd (by simp)

theorem funcTail_word {r w : List Char} (h : funcTail r = some w) :
    w ≠ [] ∧ ∀ c ∈ w, isPyWord c = true := by
  unfold funcTail at h
  dsimp only at h
  split at h
  · exact absurd h (by simp)
  split at h
  · exact absurd h (by simp)
  rename_i h2
  split at h
  · exact absurd h (by simp)
  rename_i h3
  split at h
  · split at h
    · exact absurd h (by simp)
    · simp only [Option.some.injEq] at h
      subst h
      refine ⟨?_, fun c hc => List.mem_takeWhile_imp hc⟩
      intro hnil
      rw [hnil] at h3
      exact h3 rfl
  · exact absurd h (by simp)

theorem funcFind_word {w : List Char} :
    ∀ (prev : Option Char) (r : List Char), funcFind prev r = some w →
      w ≠ [] ∧ ∀ c ∈ w, isPyWord c = true := by
  intro prev r
  induction r generalizing prev with
  | nil =>
    intro h
    unfold funcFind at h
    dsimp only at h
    split at h
    · exact funcTail_word h
    · exact absurd h (by simp)
  | cons c r' ih =>
    intro h
    unfold funcFind at h
    dsimp only at h
    split at h
    · split at h
      · exact funcTail_word h
      · exact absurd h (by simp)
    · revert h
      split
      · rename_i g hg
        intro h
        simp only [Option.some.injEq] at h
        subst h
        exact ih (some c) hg
      · intro h
        split at h
        · exact funcTail_word h
        · exact absurd h (by simp)

theorem sanitize_word (s : List Char) : ∀ c ∈ sanitize s, isPyWord c = true := by
  intro c hc
  unfold sanitize at hc
  obtain ⟨d, _, hd⟩ := List.mem_map.mp hc
  by_cases h : isPyWord d = true
  · rw [h] at hd
    simp at hd
    rwa [← hd]
  · simp only [Bool.not_eq_true] at h
    rw [h] at hd
    simp at hd
    rw [← hd]
    decide

/-! ## Removal-side line facts -/

theorem remGo_keep_cons (l : List Char) (X : List (List Char))
    (h : cleanLine l = true) : remGo false (l :: X) = l :: remGo false X := by
  unfold cleanLine at h
  simp only [Bool.and_eq_true, Bool.not_eq_true'] at h
  obtain ⟨⟨h1, h2⟩, h3⟩ := h
  simp [remGo, h1, h2, h3]

theorem remGo_keep_append (A X : List (List Char))
    (h : ∀ x ∈ A, cleanLine x = true) :
    remGo false (A ++ X) = A ++ remGo false X := by
  induction A with
  | nil => simp
  | cons a A' ih =>
    rw [List.cons_append, remGo_keep_cons _ _ (h a (by simp)), List.cons_append,
      ih (fun x hx => h x (List.mem_cons_of_mem a hx))]

/-! ## Probe-line facts -/

theorem probe_no_eq {ind cid : List Char} (hind : ∀ c ∈ ind, isPySpace c = true)
    (hcid : ∀ c ∈ cid, isPyWord c = true) : '=' ∉ ind ++ coverCall cid := by
  intro hmem
  unfold coverCall at hmem
  simp only [List.mem_append, List.mem_cons] at hmem
  rcases hmem with h | h | h | h | h
  · exact absurd (hind _ h) (by decide)
  · exact absurd h (by decide)
  · exact absurd h (by decide)
  · exact absurd (hcid _ h) (by decide)
  · exact absurd h (by decide)

theorem probe_contains_cover (ind cid : List Char) :
    containsSub (ind ++ coverCall cid) coverPat = true := by
  have heq : ind ++ coverCall cid = ind ++ coverPat ++ ('"' :: (cid ++ "\");".data)) := by
    unfold coverCall
    rw [List.append_assoc]
  rw [heq]
  exact containsSub_of_parts _ _ _

theorem standaloneCover_probe {ind cid : List Char}
    (hind : ∀ c ∈ ind, isPySpace c = true)
    (hcid : ∀ c ∈ cid, isPyWord c = true) :
    standaloneCover (ind ++ coverCall cid) = true := by
  have hp : ∀ c ∈ cid, (c != ')') = true := by
    intro c hc
    exact bne_iff_ne.mpr (word_ne (hcid c hc) (by decide))
  have hdropInd : (ind ++ coverCall cid).dropWhile isPySpace = coverCall cid := by
    rw [dropWhile_append_all ind _ hind]
    rw [show coverCall cid =
      'C' :: ("OVER(".data ++ ('"' :: (cid ++ "\");".data))) from rfl]
    exact dropWhile_cons_of_neg _ (by decide)
  have hdrop6 : (coverCall cid).drop 6 = '"' :: (cid ++ "\");".data) := by
    unfold coverCall
    rw [show (6 : Nat) = coverPat.length from rfl]
    exact List.drop_left _ _
  have htake : ('"' :: (cid ++ "\");".data)).takeWhile (· != ')') =
      '"' :: (cid ++ ['"']) := by
    rw [takeWhile_cons_of_pos _ (by decide),
      show ("\");".data : List Char) = '"' :: [')', ';'] from rfl,
      takeWhile_append_all cid _ hp]
    rfl
  have hdropP : ('"' :: (cid ++ "\");".data)).dropWhile (· != ')') = [')', ';'] := by
    rw [List.dropWhile_cons]
    simp only [show (('"' != ')') = true) from rfl, if_true]
    rw [dropWhile_append_all cid _ hp]
    rfl
  unfold standaloneCover
  dsimp only
  rw [hdropInd, hdrop6, htake, hdropP]
  simp only [Bool.and_eq_true]
  refine ⟨?_, ?_, ?_⟩
  · rw [List.isPrefixOf_iff_prefix]
    unfold coverCall
    exact List.prefix_append _ _
  · simp
  · rfl

theorem remGo_probe {ind cid : List Char} (X : List (List Char))
    (hind : ∀ c ∈ ind, isPySpace c = true)
    (hcid : ∀ c ∈ cid, isPyWord c = true) :
    remGo false ((ind ++ coverCall cid) :: X) = remGo false X := by
  have h1 : containsSub (ind ++ coverCall cid) hdrStartPat = false :=
    not_containsSub_of_missing '=' (by decide) (probe_no_eq hind hcid)
  have h2 : containsSub (ind ++ coverCall cid) hdrEndPat = false :=
    not_containsSub_of_missing '=' (by decide) (probe_no_eq hind hcid)
  simp [remGo, h1, h2, probe_contains_cover, standaloneCover_probe hind hcid]

theorem digit_word {c : Char} (h : isDigitC c = true) : isPyWord c = true := by
  unfold isDigitC at h
  unfold isPyWord
  simp only [Bool.and_eq_true, decide_eq_true_eq] at h
  simp only [Bool.or_eq_true, Bool.and_eq_true, decide_eq_true_eq, beq_iff_eq]
  omega

theorem get_next_id_word {st : St} {pfx : List Char}
    (hpfx : ∀ c ∈ pfx, isPyWord c = true) :
    ∀ c ∈ (get_next_id st pfx).1, isPyWord c = true := by
  intro c hc
  unfold get_next_id at hc
  dsimp only at hc
  rcases List.mem_append.mp hc with h | h
  · exact hpfx c h
  · rcases List.mem_cons.mp h with rfl | h
    · decide
    · exact digit_word (natChars_digits _ c h)

theorem fourSp_space : ∀ c ∈ fourSp, isPySpace c = true := by
  intro c hc
  rw [show fourSp = [' ', ' ', ' ', ' '] from rfl] at hc
  simp only [List.mem_cons, List.not_mem_nil, or_false] at hc
  rcases hc with rfl | rfl | rfl | rfl <;> decide

theorem braceIndent_space (rest : List (List Char)) :
    ∀ c ∈ braceIndent rest, isPySpace c = true := by
  intro c hc
  unfold braceIndent at hc
  match rest with
  | [] =>
    simp only at hc
    exact fourSp_space c hc
  | nl :: _ =>
    simp only at hc
    split at hc
    · exact fourSp_space c hc
    · rw [List.eq_of_mem_replicate hc]
      decide

theorem caseParse_ind_space {l ind lbl : List Char}
    (h : caseParse l = some (ind, lbl)) : ∀ c ∈ ind, isPySpace c = true := by
  unfold caseParse at h
  dsimp only at h
  split at h
  · split at h
    · exact absurd h (by simp)
    split at h
    · exact absurd h (by simp)
    split at h
    · simp only [Option.some.injEq, Prod.mk.injEq] at h
      intro c hc
      rw [← h.1] at hc
      exact List.mem_takeWhile_imp hc
    split at h
    · simp only [Option.some.injEq, Prod.mk.injEq] at h
      intro c hc
      rw [← h.1] at hc
      exact List.mem_takeWhile_imp hc
    · exact absurd h (by simp)
  · exact absurd h (by simp)

theorem defaultParse_ind_space {l ind : List Char}
    (h : defaultParse l = some ind) : ∀ c ∈ ind, isPySpace c = true := by
  unfold defaultParse at h
  dsimp only at h
  split at h
  · split at h
    · simp only [Option.some.injEq] at h
      intro c hc
      rw [← h] at hc
      exact List.mem_takeWhile_imp hc
    · exact absurd h (by simp)
  · exact absurd h (by simp)

theorem kindNoFunc_ne_func (l : List Char) (fn : List Char) :
    kindNoFunc l ≠ some (BKind.func fn) := by
  unfold kindNoFunc
  split
  · simp
  split
  · simp
  split
  · simp
  · simp

theorem lineKind_func {l fn : List Char} (h : lineKind l = some (BKind.func fn)) :
    funcFind none l = some fn := by
  unfold lineKind at h
  split at h
  · rename_i fn' hf
    split at h
    · exact absurd h (kindNoFunc_ne_func l fn)
    · simp only [Option.some.injEq, BKind.func.injEq] at h
      rw [hf, h]
  · exact absurd h (kindNoFunc_ne_func l fn)

/-- One loop iteration on clean, inline-free input consumes a segment of the
original lines, emits them verbatim plus (possibly) one standalone probe
line that removal deletes again, and never touches the rest. -/
theorem instrStep_roundtrip (noc : Bool) (st : St) (l : List Char)
    (ls X : List (List Char))
    (hc : ∀ x ∈ l :: ls, cleanLine x = true)
    (hni : ∀ x ∈ l :: ls, inlineCasePath x = false) :
    ∃ seg, l :: ls = seg ++ (instrStep noc st l ls).2.2.2 ∧
      remGo false ((instrStep noc st l ls).1 ++ X) = seg ++ remGo false X := by
  have hcl : cleanLine l = true := hc l (by simp)
  unfold instrStep
  split
  · exact ⟨[l], rfl, remGo_keep_cons l X hcl⟩
  split
  · exact ⟨[l], rfl, remGo_keep_cons l X hcl⟩
  split
  · exact ⟨[l], rfl, remGo_keep_cons l X hcl⟩
  split
  · rename_i h4
    exfalso
    unfold cleanLine at hcl
    simp only [Bool.and_eq_true, Bool.not_eq_true'] at hcl
    rw [hcl.1.1] at h4
    exact absurd h4 (by simp)
  split
  · rename_i h5
    exfalso
    unfold cleanLine at hcl
    simp only [Bool.and_eq_true, Bool.not_eq_true'] at hcl
    rw [hcl.2] at h5
    exact absurd h5 (by simp)
  split
  · rename_i k bk hk hbk
    dsimp only
    have hcid : ∀ c ∈ (match bk with
        | BKind.func fn => (fn ++ entrySuf, st)
        | BKind.elsif => get_next_id st elsePfx
        | BKind.els => get_next_id st elsePfx
        | BKind.iff => get_next_id st ifPfx).1, isPyWord c = true := by
      cases bk with
      | func fn =>
        intro c hcc
        rcases List.mem_append.mp hcc with h | h
        · exact (funcFind_word none l (lineKind_func hbk)).2 c h
        · have hE : ∀ c ∈ entrySuf, isPyWord c = true := by decide
          exact hE c h
      | elsif => exact get_next_id_word (by decide)
      | els => exact get_next_id_word (by decide)
      | iff => exact get_next_id_word (by decide)
    refine ⟨(l :: ls).take (k + 1), (List.take_append_drop (k + 1) (l :: ls)).symm, ?_⟩
    rw [List.append_assoc, List.singleton_append,
      remGo_keep_append _ _ (fun x hx => hc x (List.take_subset _ _ hx)),
      remGo_probe X (braceIndent_space _) hcid]
  · split
    · rename_i ind lbl hcp
      dsimp only
      split
      · rename_i hinl
        exfalso
        have hip := hni l (by simp)
        unfold inlineCasePath at hip
        rw [hcp] at hip
        simp [hinl] at hip
      · refine ⟨[l], rfl, ?_⟩
        have hind : ∀ c ∈ ind ++ fourSp, isPySpace c = true := by
          intro c hcc
          rcases List.mem_append.mp hcc with h | h
          · exact caseParse_ind_space hcp c h
          · exact fourSp_space c h
        have hcid : ∀ c ∈ (get_next_id st (casePfx ++ sanitize (pyStrip lbl))).1,
            isPyWord c = true := by
          refine get_next_id_word ?_
          intro c hcc
          rcases List.mem_append.mp hcc with h | h
          · have hC : ∀ c ∈ casePfx, isPyWord c = true := by decide
            exact hC c h
          · exact sanitize_word _ c h
        rw [show ([l, (ind ++ fourSp) ++
              coverCall (get_next_id st (casePfx ++ sanitize (pyStrip lbl))).1] ++ X :
              List (List Char)) = l :: (((ind ++ fourSp) ++
              coverCall (get_next_id st (casePfx ++ sanitize (pyStrip lbl))).1) :: X)
            from rfl,
          remGo_keep_cons l _ hcl, remGo_probe X hind hcid]
        rfl
    · split
      · rename_i ind hdp
        dsimp only
        refine ⟨[l], rfl, ?_⟩
        have hind : ∀ c ∈ ind ++ fourSp, isPySpace c = true := by
          intro c hcc
          rcases List.mem_append.mp hcc with h | h
          · exact defaultParse_ind_space hdp c h
          · exact fourSp_space c h
        have hcid : ∀ c ∈ (get_next_id st defaultPfx).1, isPyWord c = true :=
          get_next_id_word (by decide)
        rw [show ([l, (ind ++ fourSp) ++ coverCall (get_next_id st defaultPfx).1] ++ X :
              List (List Char)) = l :: (((ind ++ fourSp) ++
              coverCall (get_next_id st defaultPfx).1) :: X) from rfl,
          remGo_keep_cons l _ hcl, remGo_probe X hind hcid]
        rfl
      · exact ⟨[l], rfl, remGo_keep_cons l X hcl⟩

/-- The loop on clean, inline-free lines: removal of the instrumented lines
restores them exactly. -/
theorem instrGoF_roundtrip (fuel : Nat) :
    ∀ (noc : Bool) (st : St) (rem : List (List Char)), rem.length ≤ fuel →
      (∀ x ∈ rem, cleanLine x = true) → (∀ x ∈ rem, inlineCasePath x = false) →
      remGo false (instrGoF fuel noc st rem).1 = rem := by
  induction fuel with
  | zero =>
    intro noc st rem hlen hc hni
    have hr : rem = [] := by
      cases rem with
      | nil => rfl
      | cons a b => simp at hlen
    subst hr
    simp [instrGoF, remGo]
  | succ fuel ih =>
    intro noc st rem hlen hc hni
    match rem with
    | [] => simp [instrGoF, remGo]
    | l :: ls =>
      simp only [instrGoF]
      obtain ⟨seg, hseg, hrem⟩ := instrStep_roundtrip noc st l ls
        (instrGoF fuel (instrStep noc st l ls).2.1 (instrStep noc st l ls).2.2.1
          (instrStep noc st l ls).2.2.2).1 hc hni
      rw [hrem]
      have hsub : ∀ x ∈ (instrStep noc st l ls).2.2.2, x ∈ l :: ls := by
        intro x hx
        rw [hseg]
        exact List.mem_append_right seg hx
      rw [ih _ _ _ (le_trans (instrStep_rest_le noc st l ls)
          (by simpa [List.length_cons] using Nat.succ_le_succ_iff.mp hlen))
        (fun x hx => hc x (hsub x hx)) (fun x hx => hni x (hsub x hx))]
      exact hseg.symm

/-! ## Splitting and joining lines -/

theorem splitNlF_ne_nil (fuel : Nat) (s : List Char) : splitNlF fuel s ≠ [] := by
  cases fuel with
  | zero => simp [splitNlF]
  | succ fuel =>
    rw [splitNlF]
    split <;> simp

theorem splitNl_ne_nil (s : List Char) : splitNl s ≠ [] := splitNlF_ne_nil _ s

theorem splitNlF_noNl (fuel : Nat) :
    ∀ s, ∀ l ∈ splitNlF fuel s, ∀ c ∈ l, c ≠ '\n' := by
  induction fuel with
  | zero =>
    intro s l hl c hc
    simp only [splitNlF, List.mem_singleton] at hl
    subst hl
    simpa using List.mem_takeWhile_imp hc
  | succ fuel ih =>
    intro s l hl c hc
    rw [splitNlF] at hl
    split at hl
    · simp only [List.mem_singleton] at hl
      subst hl
      simpa using List.mem_takeWhile_imp hc
    · rcases List.mem_cons.mp hl with rfl | hl
      · simpa using List.mem_takeWhile_imp hc
      · exact ih _ l hl c hc

theorem splitNl_noNl (s : List Char) : ∀ l ∈ splitNl s, ∀ c ∈ l, c ≠ '\n' :=
  splitNlF_noNl s.length s

theorem joinNl_cons {a : List Char} {M : List (List Char)} (h : M ≠ []) :
    joinNl (a :: M) = a ++ '\n' :: joinNl M := by
  cases M with
  | nil => exact absurd rfl h
  | cons b M' => rfl

theorem joinNl_splitNlF (fuel : Nat) :
    ∀ s, s.length ≤ fuel → joinNl (splitNlF fuel s) = s := by
  induction fuel with
  | zero =>
    intro s hlen
    have hs : s = [] := by
      cases s with
      | nil => rfl
      | cons a b => simp at hlen
    subst hs
    rfl
  | succ fuel ih =>
    intro s hlen
    rw [splitNlF]
    cases hdw : s.dropWhile (· != '\n') with
    | nil =>
      have := List.takeWhile_append_dropWhile (fun c => c != '\n') s
      rw [hdw, List.append_nil] at this
      simpa [joinNl] using this
    | cons c rest =>
      have hc : c = '\n' := by
        have := List.head?_dropWhile_not (fun c => c != '\n') s
        rw [hdw] at this
        simpa using this
      subst hc
      have hlenr : rest.length ≤ fuel := by
        have h1 := lengthDropWhileLe (fun c : Char => c != '\n') s
        rw [hdw] at h1
        simp only [List.length_cons] at h1
        omega
      rw [joinNl_cons (splitNlF_ne_nil fuel rest), ih rest hlenr]
      have := List.takeWhile_append_dropWhile (fun c => c != '\n') s
      rw [hdw] at this
      exact this

theorem joinNl_splitNl (s : List Char) : joinNl (splitNl s) = s :=
  joinNl_splitNlF s.length s le_rfl

theorem dropWhile_all_nil {p : Char → Bool} (a : List Char)
    (h : ∀ c ∈ a, p c = true) : a.dropWhile p = [] := by
  have := dropWhile_append_all a [] h
  simpa using this

theorem splitNlF_no_newline (fuel : Nat) (s : List Char)
    (h : s.dropWhile (· != '\n') = []) : splitNlF fuel s = [s] := by
  have hs : s.takeWhile (· != '\n') = s := by
    have := List.takeWhile_append_dropWhile (fun c => c != '\n') s
    rw [h, List.append_nil] at this
    exact this
  cases fuel with
  | zero => simp [splitNlF, hs]
  | succ fuel =>
    rw [splitNlF, h]
    simp [hs]

theorem splitNlF_join (fuel : Nat) :
    ∀ L, L ≠ [] → (∀ l ∈ L, ∀ c ∈ l, c ≠ '\n') → (joinNl L).length ≤ fuel →
      splitNlF fuel (joinNl L) = L := by
  induction fuel with
  | zero =>
    intro L hne hnl hlen
    match L with
    | [l] =>
      have hl : l = [] := by
        have : joinNl [l] = l := rfl
        rw [this] at hlen
        cases l with
        | nil => rfl
        | cons a b => simp at hlen
      subst hl
      rfl
    | l :: l2 :: ls =>
      rw [joinNl_cons (by simp)] at hlen
      simp at hlen
  | succ fuel ih =>
    intro L hne hnl hlen
    match L with
    | [l] =>
      have : joinNl [l] = l := rfl
      rw [this]
      apply splitNlF_no_newline
      apply dropWhile_all_nil
      intro c hc
      simpa using hnl l (by simp) c hc
    | l :: l2 :: ls =>
      rw [joinNl_cons (by simp)]
      rw [joinNl_cons (by simp)] at hlen
      have hpl : ∀ c ∈ l, (c != '\n') = true := by
        intro c hc
        simpa using hnl l (by simp) c hc
      have hdw : (l ++ '\n' :: joinNl (l2 :: ls)).dropWhile (· != '\n') =
          '\n' :: joinNl (l2 :: ls) := by
        rw [dropWhile_append_all l _ hpl]
        exact dropWhile_cons_of_neg _ (by decide)
      have htw : (l ++ '\n' :: joinNl (l2 :: ls)).takeWhile (· != '\n') = l := by
        rw [takeWhile_append_all l _ hpl, takeWhile_cons_of_neg _ (by decide),
          List.append_nil]
      rw [splitNlF, hdw]
      dsimp only
      rw [htw]
      have hrec : splitNlF fuel (joinNl (l2 :: ls)) = l2 :: ls := by
        apply ih _ (by simp) (fun x hx => hnl x (List.mem_cons_of_mem l hx))
        simp only [List.length_append, List.length_cons] at hlen
        omega
      rw [hrec]

/-! ## Newline-freedom and nonemptiness of the instrumented output -/

theorem caseParse_ind_eq {l ind lbl : List Char}
    (h : caseParse l = some (ind, lbl)) : ind = l.takeWhile isPySpace := by
  unfold caseParse at h
  dsimp only at h
  split at h
  · split at h
    · exact absurd h (by simp)
    split at h
    · exact absurd h (by simp)
    split at h
    · simp only [Option.some.injEq, Prod.mk.injEq] at h
      exact h.1.symm
    split at h
    · simp only [Option.some.injEq, Prod.mk.injEq] at h
      exact h.1.symm
    · exact absurd h (by simp)
  · exact absurd h (by simp)

theorem defaultParse_ind_eq {l ind : List Char}
    (h : defaultParse l = some ind) : ind = l.takeWhile isPySpace := by
  unfold defaultParse at h
  dsimp only at h
  split at h
  · split at h
    · simp only [Option.some.injEq] at h
      exact h.symm
    · exact absurd h (by simp)
  · exact absurd h (by simp)

theorem coverCall_noNl {cid : List Char} (hcid : ∀ c ∈ cid, isPyWord c = true) :
    ∀ c ∈ coverCall cid, c ≠ '\n' := by
  intro c hc
  unfold coverCall at hc
  simp only [List.mem_append, List.mem_cons] at hc
  rcases hc with h | h | h | h
  · intro rfl'
    subst rfl'
    exact absurd h (by decide)
  · intro rfl'
    subst rfl'
    exact absurd h (by decide)
  · exact word_ne (hcid c h) (by decide)
  · intro rfl'
    subst rfl'
    exact absurd h (by decide)

theorem probe_noNl {ind cid : List Char} (hind : ∀ c ∈ ind, c ≠ '\n')
    (hcid : ∀ c ∈ cid, isPyWord c = true) :
    ∀ c ∈ ind ++ coverCall cid, c ≠ '\n' := by
  intro c hc
  rcases List.mem_append.mp hc with h | h
  · exact hind c h
  · exact coverCall_noNl hcid c h


theorem braceIndent_noNl (rest : List (List Char)) :
    ∀ c ∈ braceIndent rest, c ≠ '\n' := by
  have hfour : ∀ c ∈ fourSp, c ≠ '\n' := by decide
  intro c hc
  unfold braceIndent at hc
  match rest with
  | [] =>
    simp only at hc
    exact hfour c hc
  | nl :: _ =>
    simp only at hc
    split at hc
    · exact hfour c hc
    · rw [List.eq_of_mem_replicate hc]
      decide

/-- The id registered by the brace-seeking branch is made of word
characters only. -/
theorem step_brace_cid_word {l : List Char} {bk : BKind} (st : St)
    (hbk : lineKind l = some bk) :
    ∀ c ∈ (match bk with
      | BKind.func fn => (fn ++ entrySuf, st)
      | BKind.elsif => get_next_id st elsePfx
      | BKind.els => get_next_id st elsePfx
      | BKind.iff => get_next_id st ifPfx).1, isPyWord c = true := by
  cases bk with
  | func fn =>
    intro c hcc
    rcases List.mem_append.mp hcc with h | h
    · exact (funcFind_word none l (lineKind_func hbk)).2 c h
    · have hE : ∀ c ∈ entrySuf, isPyWord c = true := by decide
      exact hE c h
  | elsif => exact get_next_id_word (by decide)
  | els => exact get_next_id_word (by decide)
  | iff => exact get_next_id_word (by decide)

/-- The id registered by the case branch is made of word characters only. -/
theorem step_case_cid_word (st : St) (lbl : List Char) :
    ∀ c ∈ (get_next_id st (casePfx ++ sanitize (pyStrip lbl))).1,
      isPyWord c = true := by
  refine get_next_id_word ?_
  intro c hcc
  rcases List.mem_append.mp hcc with h | h
  · have hC : ∀ c ∈ casePfx, isPyWord c = true := by decide
    exact hC c h
  · exact sanitize_word _ c h

theorem inlineLine_noNl {l cid : List Char} (hl : ∀ c ∈ l, c ≠ '\n')
    (hcid : ∀ c ∈ cid, isPyWord c = true) :
    ∀ c ∈ inlineLine l cid, c ≠ '\n' := by
  intro c hc
  unfold inlineLine at hc
  simp only [List.mem_append, List.mem_cons] at hc
  rcases hc with h | h | h | h | h
  · exact hl c ((List.takeWhile_sublist _).subset h)
  · subst h; decide
  · subst h; decide
  · exact coverCall_noNl hcid c h
  · rcases h with h | h
    · subst h; decide
    · refine hl c ?_
      have h2 := pyStrip_subset (caseSplitTail l) h
      exact List.drop_subset _ _ h2

theorem instrStep_noNl (noc : Bool) (st : St) (l : List Char)
    (ls : List (List Char)) (h : ∀ x ∈ l :: ls, ∀ c ∈ x, c ≠ '\n') :
    (∀ x ∈ (instrStep noc st l ls).1, ∀ c ∈ x, c ≠ '\n') ∧
      (∀ x ∈ (instrStep noc st l ls).2.2.2, x ∈ l :: ls) := by
  have hl : ∀ c ∈ l, c ≠ '\n' := h l (by simp)
  have hsingle : (∀ x ∈ ([l] : List (List Char)), ∀ c ∈ x, c ≠ '\n') := by
    intro x hx
    rcases List.mem_cons.mp hx with rfl | hx
    · exact hl
    · exact absurd hx (by simp)
  unfold instrStep
  split
  · exact ⟨hsingle, fun x hx => List.mem_cons_of_mem l hx⟩
  split
  · exact ⟨hsingle, fun x hx => List.mem_cons_of_mem l hx⟩
  split
  · exact ⟨hsingle, fun x hx => List.mem_cons_of_mem l hx⟩
  split
  · cases hdrop : (l :: ls).drop
        ((List.takeWhile (fun x => !containsSub x hdrEndPat) (l :: ls)).length) with
    | nil =>
      simp only [hdrop]
      refine ⟨?_, by simp⟩
      intro x hx
      exact h x ((List.takeWhile_sublist _).subset hx)
    | cons e rest' =>
      simp only [hdrop]
      constructor
      · intro x hx
        rcases List.mem_append.mp hx with hx | hx
        · exact h x ((List.takeWhile_sublist _).subset hx)
        · simp only [List.mem_singleton] at hx
          subst hx
          refine h x ?_
          have hmem : x ∈ (l :: ls).drop
              ((List.takeWhile (fun y => !containsSub y hdrEndPat) (l :: ls)).length) := by
            rw [hdrop]
            simp
          exact List.drop_subset _ _ hmem
      · intro x hx
        have hmem : x ∈ (l :: ls).drop
            ((List.takeWhile (fun y => !containsSub y hdrEndPat) (l :: ls)).length) := by
          rw [hdrop]
          exact List.mem_cons_of_mem e hx
        exact List.drop_subset _ _ hmem
  split
  · exact ⟨hsingle, fun x hx => List.mem_cons_of_mem l hx⟩
  split
  · rename_i k bk hk hbk
    dsimp only
    constructor
    · intro x hx
      rcases List.mem_append.mp hx with hx | hx
      · exact fun c hc => h x (List.take_subset _ _ hx) c hc
      · simp only [List.mem_singleton] at hx
        subst hx
        exact probe_noNl (braceIndent_noNl _) (step_brace_cid_word st hbk)
    · intro x hx
      exact List.drop_subset _ _ hx
  · split
    · rename_i ind lbl hcp
      dsimp only
      have hindNl : ∀ c ∈ ind ++ fourSp, c ≠ '\n' := by
        intro c hc
        rcases List.mem_append.mp hc with hc | hc
        · rw [caseParse_ind_eq hcp] at hc
          exact hl c ((List.takeWhile_sublist _).subset hc)
        · have hfour : ∀ c ∈ fourSp, c ≠ '\n' := by decide
          exact hfour c hc
      split
      · refine ⟨?_, fun x hx => List.mem_cons_of_mem l hx⟩
        intro x hx
        rcases List.mem_cons.mp hx with rfl | hx
        · exact inlineLine_noNl hl (step_case_cid_word st lbl)
        · exact absurd hx (by simp)
      · refine ⟨?_, fun x hx => List.mem_cons_of_mem l hx⟩
        intro x hx
        rcases List.mem_cons.mp hx with rfl | hx
        · exact hl
        · rcases List.mem_cons.mp hx with rfl | hx
          · exact probe_noNl hindNl (step_case_cid_word st lbl)
          · exact absurd hx (by simp)
    · split
      · rename_i ind hdp
        dsimp only
        have hindNl : ∀ c ∈ ind ++ fourSp, c ≠ '\n' := by
          intro c hc
          rcases List.mem_append.mp hc with hc | hc
          · rw [defaultParse_ind_eq hdp] at hc
            exact hl c ((List.takeWhile_sublist _).subset hc)
          · have hfour : ∀ c ∈ fourSp, c ≠ '\n' := by decide
            exact hfour c hc
        refine ⟨?_, fun x hx => List.mem_cons_of_mem l hx⟩
        intro x hx
        rcases List.mem_cons.mp hx with rfl | hx
        · exact hl
        · rcases List.mem_cons.mp hx with rfl | hx
          · exact probe_noNl hindNl (get_next_id_word (by decide))
          · exact absurd hx (by simp)
      · exact ⟨hsingle, fun x hx => List.mem_cons_of_mem l hx⟩

theorem instrStep_out_ne_nil (noc : Bool) (st : St) (l : List Char)
    (ls : List (List Char)) : (instrStep noc st l ls).1 ≠ [] := by
  unfold instrStep
  split
  · simp
  split
  · simp
  split
  · simp
  split
  · cases hdrop : (l :: ls).drop
        ((List.takeWhile (fun x => !containsSub x hdrEndPat) (l :: ls)).length) with
    | nil =>
      simp only [hdrop]
      intro hpre
      have h1 := congrArg List.length hdrop
      rw [hpre] at h1
      simp only [List.length_drop, List.length_nil, List.length_cons] at h1
      omega
    | cons e rest' =>
      simp only [hdrop]
      simp
  split
  · simp
  split
  · rename_i k bk hk hbk
    dsimp only
    simp
  · split
    · rename_i ind lbl hcp
      dsimp only
      split <;> simp
    · split
      · dsimp only
        simp
      · simp

theorem instrGoF_noNl (fuel : Nat) :
    ∀ (noc : Bool) (st : St) (rem : List (List Char)),
      (∀ x ∈ rem, ∀ c ∈ x, c ≠ '\n') →
      ∀ x ∈ (instrGoF fuel noc st rem).1, ∀ c ∈ x, c ≠ '\n' := by
  induction fuel with
  | zero =>
    intro noc st rem h x hx
    match rem with
    | [] => exact absurd hx (by simp [instrGoF])
    | l :: ls => exact h x hx
  | succ fuel ih =>
    intro noc st rem h x hx
    match rem with
    | [] => exact absurd hx (by simp [instrGoF])
    | l :: ls =>
      simp only [instrGoF] at hx
      rcases List.mem_append.mp hx with hx | hx
      · exact (instrStep_noNl noc st l ls h).1 x hx
      · refine ih _ _ _ ?_ x hx
        intro y hy
        exact h y ((instrStep_noNl noc st l ls h).2 y hy)

theorem instrGoF_out_ne_nil (fuel : Nat) (noc : Bool) (st : St)
    (rem : List (List Char)) (hrem : rem ≠ []) :
    (instrGoF fuel noc st rem).1 ≠ [] := by
  match rem with
  | [] => exact absurd rfl hrem
  | l :: ls =>
    cases fuel with
    | zero => simp [instrGoF]
    | succ fuel =>
      simp only [instrGoF]
      intro hcon
      rcases List.append_eq_nil.mp hcon with ⟨h1, _⟩
      exact instrStep_out_ne_nil noc st l ls h1

/-- C1 (amended): for a clean source (no tracking marker, no `COVER(` call
on any line) in which no line takes the case branch's inline-splice path,
removal undoes instrumentation up to trailing-blank-line normalization:
`remove_coverage (instrument s)` is `s` with its trailing blank lines
popped. -/
theorem splitNl_join (L : List (List Char)) (hne : L ≠ [])
    (hnl : ∀ l ∈ L, ∀ c ∈ l, c ≠ '\n') : splitNl (joinNl L) = L :=
  splitNlF_join _ L hne hnl le_rfl

theorem c1_roundtrip_clean (s : List Char)
    (hclean : ∀ l ∈ splitNl s, cleanLine l = true)
    (hni : ∀ l ∈ splitNl s, inlineCasePath l = false) :
    remove_coverage (instrument s) = joinNl (popTrail (splitNl s)) := by
  unfold remove_coverage instrument instrumentRun instrGo
  have hnl := splitNl_noNl s
  have hOnl := instrGoF_noNl (splitNl s).length false ⟨0, []⟩ (splitNl s) hnl
  have hOne := instrGoF_out_ne_nil (splitNl s).length false ⟨0, []⟩ (splitNl s)
    (splitNl_ne_nil s)
  rw [splitNl_join _ hOne hOnl]
  rw [instrGoF_roundtrip _ false ⟨0, []⟩ _ le_rfl hclean hni]

/-- Witness for `c1_roundtrip_clean` at a concrete clean input. -/
theorem c1_roundtrip_clean_witness :
    (∀ l ∈ splitNl ("int f(int a) \x7b\n  g();\n\x7d".data), cleanLine l = true) ∧
    (∀ l ∈ splitNl ("int f(int a) \x7b\n  g();\n\x7d".data), inlineCasePath l = false) ∧
    remove_coverage (instrument ("int f(int a) \x7b\n  g();\n\x7d".data)) =
      joinNl (popTrail (splitNl ("int f(int a) \x7b\n  g();\n\x7d".data))) :=
  ⟨by decide, by decide,
    c1_roundtrip_clean ("int f(int a) \x7b\n  g();\n\x7d".data) (by decide) (by decide)⟩

/-! ## The registry invariant -/

theorem trailingDigits_append (p d : List Char) (hd : ∀ c ∈ d, isDigitC c = true) :
    trailingDigits (p ++ '_' :: d) = d := by
  unfold trailingDigits
  rw [List.reverse_append, List.reverse_cons, List.append_assoc,
    takeWhile_append_all d.reverse _ (fun c hc => hd c (List.mem_reverse.mp hc)),
    List.singleton_append, takeWhile_cons_of_neg _ (by decide), List.append_nil,
    List.reverse_reverse]

theorem entry_not_endsDigit (fn : List Char) :
    endsDigit (fn ++ entrySuf) = false := by
  unfold endsDigit
  rw [List.getLast?_append_of_ne_nil _ (by decide)]
  rfl

theorem counterId_endsDigit (pfx : List Char) (k : Nat) :
    endsDigit (pfx ++ '_' :: natChars k) = true :=
  specCounterId_endsDigit ⟨pfx, k, rfl⟩

theorem idFormOK_mono {m n : Nat} (h : m ≤ n) {id : List Char}
    (hf : idFormOK m id) : idFormOK n id := by
  rcases hf with h1 | ⟨k, hk1, hk2, hk3⟩
  · exact Or.inl h1
  · exact Or.inr ⟨k, hk1, le_trans hk2 h, hk3⟩

theorem fullInv_register {st : St} {pfx : List Char} (h : FullInv st)
    (hpfx : pfx = elsePfx ∨ pfx = ifPfx ∨ pfx = defaultPfx ∨
      ∃ v, (∀ c ∈ v, isPyWord c = true) ∧ pfx = casePfx ++ v) :
    FullInv ⟨st.counter + 1, st.points ++ [pfx ++ '_' :: natChars (st.counter + 1)]⟩ := by
  obtain ⟨hreg, hforms⟩ := h
  constructor
  · show ((st.points ++ [pfx ++ '_' :: natChars (st.counter + 1)]).filter
        endsDigit).map trailingDigits = _
    rw [List.filter_append]
    rw [show List.filter endsDigit [pfx ++ '_' :: natChars (st.counter + 1)] =
        [pfx ++ '_' :: natChars (st.counter + 1)] from by
      simp [List.filter, counterId_endsDigit]]
    rw [List.map_append, hreg]
    rw [show List.map trailingDigits [pfx ++ '_' :: natChars (st.counter + 1)] =
        [natChars (st.counter + 1)] from by
      simp [trailingDigits_append _ _ (natChars_digits _)]]
    show _ = (List.range' 1 (st.counter + 1)).map natChars
    rw [List.range'_concat, List.map_append]
    simp only [List.map_cons, List.map_nil, List.append_cancel_left_eq,
      List.cons.injEq, and_true]
    congr 1
    omega
  · intro id hid
    rcases List.mem_append.mp hid with hid | hid
    · exact idFormOK_mono (Nat.le_succ _) (hforms id hid)
    · simp only [List.mem_singleton] at hid
      subst hid
      refine Or.inr ⟨st.counter + 1, by omega, le_rfl, ?_⟩
      rcases hpfx with rfl | rfl | rfl | ⟨v, hv, rfl⟩
      · exact Or.inl rfl
      · exact Or.inr (Or.inl rfl)
      · exact Or.inr (Or.inr (Or.inl rfl))
      · exact Or.inr (Or.inr (Or.inr ⟨v, hv, rfl⟩))

theorem fullInv_register_entry {st : St} {fn : List Char} (h : FullInv st)
    (hfn : fn ≠ []) (hw : ∀ c ∈ fn, isPyWord c = true) :
    FullInv ⟨st.counter, st.points ++ [fn ++ entrySuf]⟩ := by
  obtain ⟨hreg, hforms⟩ := h
  constructor
  · show ((st.points ++ [fn ++ entrySuf]).filter endsDigit).map trailingDigits = _
    rw [List.filter_append]
    rw [show List.filter endsDigit [fn ++ entrySuf] = [] from by
      simp [List.filter, entry_not_endsDigit]]
    rw [List.append_nil]
    exact hreg
  · intro id hid
    rcases List.mem_append.mp hid with hid | hid
    · exact hforms id hid
    · simp only [List.mem_singleton] at hid
      subst hid
      exact Or.inl ⟨fn, hfn, hw, rfl⟩

theorem instrStep_fullInv (noc : Bool) (st : St) (l : List Char)
    (ls : List (List Char)) (h : FullInv st) :
    FullInv (instrStep noc st l ls).2.2.1 := by
  unfold instrStep
  split
  · exact h
  split
  · exact h
  split
  · exact h
  split
  · dsimp only
    split
    · exact h
    · exact h
  split
  · exact h
  split
  · rename_i k bk hk hbk
    dsimp only
    cases bk with
    | func fn =>
      exact fullInv_register_entry h (funcFind_word none l (lineKind_func hbk)).1
        (funcFind_word none l (lineKind_func hbk)).2
    | elsif => exact fullInv_register h (Or.inl rfl)
    | els => exact fullInv_register h (Or.inl rfl)
    | iff => exact fullInv_register h (Or.inr (Or.inl rfl))
  · split
    · rename_i ind lbl hcp
      dsimp only
      split
      · exact fullInv_register h (Or.inr (Or.inr (Or.inr
          ⟨sanitize (pyStrip lbl), sanitize_word _, rfl⟩)))
      · exact fullInv_register h (Or.inr (Or.inr (Or.inr
          ⟨sanitize (pyStrip lbl), sanitize_word _, rfl⟩)))
    · split
      · dsimp only
        exact fullInv_register h (Or.inr (Or.inr (Or.inl rfl)))
      · exact h

theorem instrGoF_fullInv (fuel : Nat) :
    ∀ (noc : Bool) (st : St) (rem : List (List Char)), FullInv st →
      FullInv (instrGoF fuel noc st rem).2 := by
  induction fuel with
  | zero =>
    intro noc st rem h
    match rem with
    | [] => exact h
    | l :: ls => exact h
  | succ fuel ih =>
    intro noc st rem h
    match rem with
    | [] => exact h
    | l :: ls =>
      simp only [instrGoF]
      exact ih _ _ _ (instrStep_fullInv noc st l ls h)

theorem instrumentRun_fullInv (s : List Char) : FullInv (instrumentRun s).2 := by
  unfold instrumentRun instrGo
  refine instrGoF_fullInv _ _ _ _ ⟨rfl, ?_⟩
  intro id hid
  exact absurd hid (by simp)


theorem natChars_injective : Function.Injective natChars := fun _ _ h => natChars_inj h

/-- C2 (amended): in any single run, the counter-drawn ids — every
registered id that ends in a digit, i.e. all points other than the
function-entry ones — are pairwise distinct: each carries a distinct
counter value as its digit suffix.  (Function-entry ids of same-named
functions can collide, see the counterexample.) -/
theorem c2_counter_ids_nodup (s : List Char) :
    ((coveragePoints s).filter endsDigit).Nodup := by
  have hinv := (instrumentRun_fullInv s).1
  have hmap : (((coveragePoints s).filter endsDigit).map trailingDigits).Nodup := by
    unfold coveragePoints
    rw [hinv]
    exact (List.nodup_range' _ _).map natChars_injective
  exact List.Nodup.of_map _ hmap

/-- C7 (amended): after any run the counter equals the number of
counter-drawn (digit-ending) points — every `get_next_id` call increments
it once and registers one id carrying that value — while function-entry
registrations leave it untouched. -/
theorem c7_counter_counts_digit_ids (s : List Char) :
    counterAfter s = ((coveragePoints s).filter endsDigit).length := by
  have hinv := (instrumentRun_fullInv s).1
  have h1 := congrArg List.length hinv
  simp only [List.length_map, List.length_range'] at h1
  unfold counterAfter coveragePoints
  omega

/-- C6 (amended): every id the instrumenter registers is of one of the
shapes the code actually emits: `"{fname}_entry"` (function identifier,
no counter) or `"else_k"` / `"if_k"` / `"default_k"` /
`"case_{sanitized-label}_k"` with `k` drawn from the per-run counter;
neither function-entry ids nor the `if`/`else` ids carry the enclosing
function's name. -/
theorem c6_registered_id_forms (s : List Char) :
    ∀ id ∈ coveragePoints s, idFormOK (counterAfter s) id :=
  (instrumentRun_fullInv s).2

/-- Witness for `c6_registered_id_forms` at a concrete input. -/
theorem c6_registered_id_forms_witness :
    "if_1".data ∈ coveragePoints ("if (x) \x7b\n\x7d".data) ∧
      idFormOK (counterAfter ("if (x) \x7b\n\x7d".data)) ("if_1".data) :=
  ⟨by decide, c6_registered_id_forms ("if (x) \x7b\n\x7d".data) ("if_1".data) (by decide)⟩

/-! ## Counting probe occurrences -/

theorem ne_of_pred {p : Char → Bool} {c d : Char} (h1 : p c = true)
    (h2 : p d = false) : c ≠ d := by
  intro rfl'
  rw [rfl'] at h1
  rw [h1] at h2
  exact absurd h2 (by simp)

theorem isPrefixOf_append_mono {t x : List Char} (y : List Char)
    (h : t.isPrefixOf x = true) : t.isPrefixOf (x ++ y) = true := by
  rw [List.isPrefixOf_iff_prefix] at h ⊢
  exact h.trans (List.prefix_append x y)

theorem isPrefixOf_append_mid {t : List Char} {c : Char} (hc : c ∉ t) :
    ∀ xs ys : List Char, t.isPrefixOf (xs ++ c :: ys) = t.isPrefixOf xs := by
  induction t with
  | nil =>
    intro xs ys
    simp [List.isPrefixOf_iff_prefix]
  | cons a t' ih =>
    intro xs ys
    cases xs with
    | nil =>
      simp only [List.nil_append]
      have hac : (a == c) = false := by
        have : a ≠ c := fun h => hc (h ▸ List.mem_cons_self a t')
        simpa using this
      simp [List.isPrefixOf, hac]
    | cons x xs' =>
      simp only [List.cons_append, List.isPrefixOf, List.append_eq]
      rw [ih (fun h => hc (List.mem_cons_of_mem a h)) xs' ys]

theorem countOccur_append_mid {t : List Char} {c : Char} (hc : c ∉ t)
    (ht : t ≠ []) : ∀ xs ys : List Char,
      countOccur (xs ++ c :: ys) t = countOccur xs t + countOccur ys t := by
  intro xs ys
  induction xs with
  | nil =>
    simp only [List.nil_append, countOccur]
    have hp : t.isPrefixOf (c :: ys) = false := by
      cases t with
      | nil => exact absurd rfl ht
      | cons a t' =>
        have hac : (a == c) = false := by
          have : a ≠ c := fun h => hc (h ▸ List.mem_cons_self a t')
          simpa using this
        simp [List.isPrefixOf, hac]
    rw [hp]
    simp [countOccur]
  | cons x xs' ih =>
    simp only [List.cons_append, countOccur, List.append_eq]
    have hpref : t.isPrefixOf (x :: (xs' ++ c :: ys)) = t.isPrefixOf (x :: xs') :=
      isPrefixOf_append_mid hc (x :: xs') ys
    simp only [hpref, ih]
    omega

theorem countOccur_zero_of_missing {s t : List Char} (c : Char)
    (hct : c ∈ t) (hcs : c ∉ s) : countOccur s t = 0 := by
  induction s with
  | nil => rfl
  | cons d s' ih =>
    simp only [countOccur]
    have hp : t.isPrefixOf (d :: s') = false := by
      rw [Bool.eq_false_iff]
      intro hp
      rw [List.isPrefixOf_iff_prefix] at hp
      exact hcs (hp.subset hct)
    rw [hp]
    simp only [Bool.false_eq_true, if_false, Nat.zero_add]
    exact ih (fun h => hcs (List.mem_cons_of_mem d h))

theorem countOccur_cons_head_ne {t : List Char} {a c : Char} (l : List Char)
    (hh : t.head? = some a) (hne : a ≠ c) :
    countOccur (c :: l) t = countOccur l t := by
  simp only [countOccur]
  have hp : t.isPrefixOf (c :: l) = false := by
    cases t with
    | nil => exact absurd hh (by simp)
    | cons b t' =>
      have hb : b = a := by simpa using hh
      subst hb
      have hbc : (b == c) = false := by simpa using hne
      simp [List.isPrefixOf, hbc]
  rw [hp]
  simp

theorem countOccur_space_lead {ind X : List Char}
    (hind : ∀ c ∈ ind, isPySpace c = true) :
    countOccur (ind ++ X) coverPat = countOccur X coverPat := by
  induction ind with
  | nil => simp
  | cons c ind' ih =>
    have hc := hind c (by simp)
    rw [List.cons_append,
      countOccur_cons_head_ne _ (show coverPat.head? = some 'C' from rfl)
        (ne_of_pred hc (by decide)).symm]
    exact ih (fun x hx => hind x (List.mem_cons_of_mem c hx))

theorem countOccur_coverCall {cid : List Char} (tail : List Char)
    (hcid : ∀ c ∈ cid, isPyWord c = true) :
    countOccur (coverCall cid ++ tail) coverPat = 1 + countOccur tail coverPat := by
  have hshape : coverCall cid ++ tail =
      (coverPat ++ '"' :: cid) ++ '"' :: (')' :: ';' :: tail) := by
    unfold coverCall
    simp only [List.append_assoc, List.cons_append, List.nil_append]
  rw [hshape, countOccur_append_mid (by decide) (by decide)]
  have h1 : countOccur (coverPat ++ '"' :: cid) coverPat = 1 := by
    rw [countOccur_append_mid (show ('"' : Char) ∉ coverPat by decide) (by decide) coverPat cid,
      countOccur_zero_of_missing '(' (by decide)
        (fun h => absurd (hcid '(' h) (by decide))]
    decide
  have h2 : countOccur (')' :: ';' :: tail) coverPat = countOccur tail coverPat := by
    rw [countOccur_cons_head_ne _ (show coverPat.head? = some 'C' from rfl) (by decide),
      countOccur_cons_head_ne _ (show coverPat.head? = some 'C' from rfl) (by decide)]
  rw [h1, h2]

theorem countOccur_probe {ind cid : List Char}
    (hind : ∀ c ∈ ind, isPySpace c = true)
    (hcid : ∀ c ∈ cid, isPyWord c = true) :
    countOccur (ind ++ coverCall cid) coverPat = 1 := by
  rw [countOccur_space_lead hind]
  have := countOccur_coverCall [] hcid
  rw [List.append_nil] at this
  rw [this]
  rfl

theorem containsSub_infix_iff (s t : List Char) :
    containsSub s t = true ↔ t <:+: s := by
  induction s with
  | nil => simp [containsSub, List.isEmpty_iff, List.infix_nil]
  | cons c s ih =>
    simp only [containsSub, Bool.or_eq_true, List.isPrefixOf_iff_prefix, ih,
      List.infix_cons_iff]

theorem containsSub_false_within {small big t : List Char}
    (hinf : small <:+: big) (h : containsSub big t = false) :
    containsSub small t = false := by
  rw [Bool.eq_false_iff] at h ⊢
  intro hs
  exact h ((containsSub_infix_iff big t).mpr
    (((containsSub_infix_iff small t).mp hs).trans hinf))

theorem countOccur_eq_zero_of_not_contains {s t : List Char}
    (h : containsSub s t = false) : countOccur s t = 0 := by
  induction s with
  | nil => rfl
  | cons c s ih =>
    simp only [containsSub, Bool.or_eq_false_iff] at h
    simp [countOccur, h.1, ih h.2]

theorem rstripWS_front (l : List Char) : rstripWS l <+: l := by
  induction l with
  | nil => simp [rstripWS]
  | cons c cs ih =>
    rw [rstripWS]
    split
    · exact List.nil_prefix
    · exact (List.cons_prefix_cons).mpr ⟨rfl, ih⟩

theorem pyStrip_within (l : List Char) : pyStrip l <:+: l :=
  (rstripWS_front _).isInfix.trans (List.dropWhile_suffix _).isInfix

theorem sumCountOccur_zero (xs : List (List Char))
    (hx : ∀ x ∈ xs, containsSub x coverPat = false) :
    (xs.map (fun x => countOccur x coverPat)).sum = 0 := by
  induction xs with
  | nil => rfl
  | cons a as iha =>
    simp only [List.map_cons, List.sum_cons]
    rw [countOccur_eq_zero_of_not_contains (hx a (by simp)),
      iha (fun y hy => hx y (List.mem_cons_of_mem a hy))]

/-- An inline case splice carries exactly one probe occurrence when the
host line carried none. -/
theorem countOccur_inlineLine {l cid : List Char}
    (hl : containsSub l coverPat = false)
    (hcid : ∀ c ∈ cid, isPyWord c = true) :
    countOccur (inlineLine l cid) coverPat = 1 := by
  have hhead : countOccur (caseSplitHead l) coverPat = 0 :=
    countOccur_eq_zero_of_not_contains
      (containsSub_false_within (List.takeWhile_prefix _).isInfix hl)
  have htail : countOccur (pyStrip (caseSplitTail l)) coverPat = 0 :=
    countOccur_eq_zero_of_not_contains
      (containsSub_false_within
        ((pyStrip_within _).trans (List.drop_suffix _ _).isInfix) hl)
  unfold inlineLine
  rw [countOccur_append_mid (by decide) (by decide),
    countOccur_cons_head_ne _ (show coverPat.head? = some 'C' from rfl) (by decide),
    countOccur_coverCall _ hcid,
    countOccur_cons_head_ne _ (show coverPat.head? = some 'C' from rfl) (by decide),
    hhead, htail]

/-- One loop iteration, counted: when no incoming line already carries
`COVER(`, the occurrences of `COVER(` in the lines this iteration emits
equal the number of points it registers (each probe or inline splice adds
exactly one occurrence and one registry entry; copied lines add neither);
the lines left to process are among the incoming lines. -/
theorem instrStep_count (noc : Bool) (st : St) (l : List Char)
    (ls : List (List Char)) (h : ∀ x ∈ l :: ls, containsSub x coverPat = false) :
    ∃ new, (instrStep noc st l ls).2.2.1.points = st.points ++ new ∧
      ((instrStep noc st l ls).1.map (fun x => countOccur x coverPat)).sum
        = new.length ∧
      ∀ x ∈ (instrStep noc st l ls).2.2.2, x ∈ l :: ls := by
  have hl0 : countOccur l coverPat = 0 :=
    countOccur_eq_zero_of_not_contains (h l (by simp))
  unfold instrStep
  split
  · exact ⟨[], by simp, by simp [hl0], fun x hx => List.mem_cons_of_mem l hx⟩
  split
  · exact ⟨[], by simp, by simp [hl0], fun x hx => List.mem_cons_of_mem l hx⟩
  split
  · exact ⟨[], by simp, by simp [hl0], fun x hx => List.mem_cons_of_mem l hx⟩
  split
  · cases hdrop : (l :: ls).drop
        ((List.takeWhile (fun x => !containsSub x hdrEndPat) (l :: ls)).length) with
    | nil =>
      simp only [hdrop]
      refine ⟨[], by simp, ?_, by simp⟩
      simp only [List.length_nil]
      exact sumCountOccur_zero _ (fun x hx => h x ((List.takeWhile_sublist _).subset hx))
    | cons e rest' =>
      simp only [hdrop]
      refine ⟨[], by simp, ?_, ?_⟩
      · have he : e ∈ l :: ls := by
          have hmem : e ∈ (l :: ls).drop
              ((List.takeWhile (fun x => !containsSub x hdrEndPat) (l :: ls)).length) := by
            rw [hdrop]
            simp
          exact List.drop_subset _ _ hmem
        rw [List.map_append, List.sum_append,
          sumCountOccur_zero _ (fun x hx => h x ((List.takeWhile_sublist _).subset hx)),
          List.map_cons, List.map_nil, List.sum_cons, List.sum_nil,
          countOccur_eq_zero_of_not_contains (h e he)]
        rfl
      · intro x hx
        have hmem : x ∈ (l :: ls).drop
            ((List.takeWhile (fun y => !containsSub y hdrEndPat) (l :: ls)).length) := by
          rw [hdrop]
          exact List.mem_cons_of_mem e hx
        exact List.drop_subset _ _ hmem
  split
  · exact ⟨[], by simp, by simp [hl0], fun x hx => List.mem_cons_of_mem l hx⟩
  split
  · rename_i k bk hk hbk
    dsimp only
    have hseg : ∀ x ∈ (l :: ls).take (k + 1), containsSub x coverPat = false :=
      fun x hx => h x (List.take_subset _ _ hx)
    cases bk with
    | func fn =>
      have hcidw : ∀ c ∈ fn ++ entrySuf, isPyWord c = true := by
        intro c hc
        rcases List.mem_append.mp hc with h' | h'
        · exact (funcFind_word none l (lineKind_func hbk)).2 c h'
        · exact (by decide : ∀ c ∈ entrySuf, isPyWord c = true) c h'
      refine ⟨[fn ++ entrySuf], rfl, ?_, fun x hx => List.drop_subset _ _ hx⟩
      rw [List.map_append, List.sum_append, sumCountOccur_zero _ hseg,
        List.map_cons, List.map_nil, List.sum_cons, List.sum_nil,
        countOccur_probe (braceIndent_space _) hcidw]
      rfl
    | elsif =>
      refine ⟨[(get_next_id st elsePfx).1], rfl, ?_,
        fun x hx => List.drop_subset _ _ hx⟩
      rw [List.map_append, List.sum_append, sumCountOccur_zero _ hseg,
        List.map_cons, List.map_nil, List.sum_cons, List.sum_nil,
        countOccur_probe (braceIndent_space _) (get_next_id_word (by decide))]
      rfl
    | els =>
      refine ⟨[(get_next_id st elsePfx).1], rfl, ?_,
        fun x hx => List.drop_subset _ _ hx⟩
      rw [List.map_append, List.sum_append, sumCountOccur_zero _ hseg,
        List.map_cons, List.map_nil, List.sum_cons, List.sum_nil,
        countOccur_probe (braceIndent_space _) (get_next_id_word (by decide))]
      rfl
    | iff =>
      refine ⟨[(get_next_id st ifPfx).1], rfl, ?_,
        fun x hx => List.drop_subset _ _ hx⟩
      rw [List.map_append, List.sum_append, sumCountOccur_zero _ hseg,
        List.map_cons, List.map_nil, List.sum_cons, List.sum_nil,
        countOccur_probe (braceIndent_space _) (get_next_id_word (by decide))]
      rfl
  · split
    · rename_i ind lbl hcp
      dsimp only
      split
      · refine ⟨[(get_next_id st (casePfx ++ sanitize (pyStrip lbl))).1], rfl, ?_,
          fun x hx => List.mem_cons_of_mem l hx⟩
        rw [List.map_cons, List.map_nil, List.sum_cons, List.sum_nil,
          countOccur_inlineLine (h l (by simp)) (step_case_cid_word st lbl)]
        rfl
      · have hind : ∀ c ∈ ind ++ fourSp, isPySpace c = true := by
          intro c hc
          rcases List.mem_append.mp hc with hc | hc
          · exact caseParse_ind_space hcp c hc
          · exact fourSp_space c hc
        refine ⟨[(get_next_id st (casePfx ++ sanitize (pyStrip lbl))).1], rfl, ?_,
          fun x hx => List.mem_cons_of_mem l hx⟩
        rw [List.map_cons, List.map_cons, List.map_nil, List.sum_cons,
          List.sum_cons, List.sum_nil, hl0,
          countOccur_probe hind (step_case_cid_word st lbl)]
        rfl
    · split
      · rename_i ind hdp
        dsimp only
        have hind : ∀ c ∈ ind ++ fourSp, isPySpace c = true := by
          intro c hc
          rcases List.mem_append.mp hc with hc | hc
          · exact defaultParse_ind_space hdp c hc
          · exact fourSp_space c hc
        refine ⟨[(get_next_id st defaultPfx).1], rfl, ?_,
          fun x hx => List.mem_cons_of_mem l hx⟩
        rw [List.map_cons, List.map_cons, List.map_nil, List.sum_cons,
          List.sum_cons, List.sum_nil, hl0,
          countOccur_probe hind (get_next_id_word (by decide))]
        rfl
      · exact ⟨[], by simp, by simp [hl0], fun x hx => List.mem_cons_of_mem l hx⟩

/-- The whole loop, counted: starting from any state, the probe occurrences
in all emitted lines equal the number of newly registered points, provided
no input line already contains `COVER(`. -/
theorem instrGoF_count (fuel : Nat) :
    ∀ (noc : Bool) (st : St) (rem : List (List Char)),
      (∀ x ∈ rem, containsSub x coverPat = false) → rem.length ≤ fuel →
      ∃ new, (instrGoF fuel noc st rem).2.points = st.points ++ new ∧
        ((instrGoF fuel noc st rem).1.map (fun x => countOccur x coverPat)).sum
          = new.length := by
  induction fuel with
  | zero =>
    intro noc st rem h hlen
    have hnil : rem = [] := List.length_eq_zero.mp (Nat.le_zero.mp hlen)
    subst hnil
    exact ⟨[], by simp [instrGoF], by simp [instrGoF]⟩
  | succ fuel ih =>
    intro noc st rem h hlen
    cases rem with
    | nil => exact ⟨[], by simp [instrGoF], by simp [instrGoF]⟩
    | cons l ls =>
      obtain ⟨new1, hp1, hc1, hsub⟩ := instrStep_count noc st l ls h
      have hrest : ∀ x ∈ (instrStep noc st l ls).2.2.2,
          containsSub x coverPat = false :=
        fun x hx => h x (hsub x hx)
      have hlen2 : (instrStep noc st l ls).2.2.2.length ≤ fuel := by
        have hle := instrStep_rest_le noc st l ls
        simp only [List.length_cons] at hlen
        omega
      obtain ⟨new2, hp2, hc2⟩ :=
        ih (instrStep noc st l ls).2.1 (instrStep noc st l ls).2.2.1
          (instrStep noc st l ls).2.2.2 hrest hlen2
      refine ⟨new1 ++ new2, ?_, ?_⟩
      · simp only [instrGoF]
        rw [hp2, hp1, List.append_assoc]
      · simp only [instrGoF]
        rw [List.map_append, List.sum_append, hc1, hc2, List.length_append]

/-- Probe occurrences distribute over rejoining the lines: the newline
separator never takes part in a `COVER(` occurrence. -/
theorem countOccur_joinNl (ls : List (List Char)) :
    countOccur (joinNl ls) coverPat
      = (ls.map (fun x => countOccur x coverPat)).sum := by
  induction ls with
  | nil => rfl
  | cons l ls ih =>
    cases ls with
    | nil => simp [joinNl]
    | cons l2 ls2 =>
      simp only [joinNl]
      rw [countOccur_append_mid (by decide) (by decide), ih]
      simp

/-- C8 (amended): for every input none of whose lines already contains
`COVER(`, the number of `COVER(` occurrences in the instrumented output
equals the number of coverage points registered in that run.  (The
hypothesis is necessary: a line already containing `COVER(` is copied
through without registration, see `c8_counterexample`.) -/
theorem c8_probe_count (s : List Char)
    (h : ∀ l ∈ splitNl s, containsSub l coverPat = false) :
    countOccur (instrument s) coverPat = (coveragePoints s).length := by
  obtain ⟨new, hp, hc⟩ :=
    instrGoF_count (splitNl s).length false ⟨0, []⟩ (splitNl s) h le_rfl
  unfold instrument coveragePoints instrumentRun instrGo
  rw [countOccur_joinNl, hc, hp]
  simp

theorem c8_probe_count_witness :
    countOccur (instrument ("int f()\x7b\n  g();\n\x7d".data)) coverPat
      = (coveragePoints ("int f()\x7b\n  g();\n\x7d".data)).length :=
  c8_probe_count _ (by decide)

/-- A line carrying the NOCOVER start marker is copied verbatim and turns
suppression on, with no registration. -/
theorem instrStep_nocStart {l : List Char} (noc : Bool) (st : St)
    (ls : List (List Char)) (hs : containsSub l nocStartPat = true) :
    instrStep noc st l ls = ([l], true, st, ls) := by
  unfold instrStep
  split
  · rfl
  · rename_i hs2
    exact absurd hs hs2

/-- A line carrying the NOCOVER end marker (and not the start marker) is
copied verbatim and turns suppression off, with no registration. -/
theorem instrStep_nocEnd {l : List Char} (noc : Bool) (st : St)
    (ls : List (List Char)) (hs : containsSub l nocStartPat = false)
    (he : containsSub l nocEndPat = true) :
    instrStep noc st l ls = ([l], false, st, ls) := by
  unfold instrStep
  simp [hs, he]

/-- Inside a suppressed span, a line without the end marker is copied
verbatim: suppression stays on, no registration. -/
theorem instrStep_noc {l : List Char} (st : St) (ls : List (List Char))
    (he : containsSub l nocEndPat = false) :
    instrStep true st l ls = ([l], true, st, ls) := by
  unfold instrStep
  split
  · rfl
  · split
    · rename_i he2
      rw [he] at he2
      exact absurd he2 (by simp)
    · rfl

theorem instrGoF_noc_span (span : List (List Char)) :
    ∀ (fuel : Nat) (st : St) (post : List (List Char)),
      (∀ x ∈ span, containsSub x nocEndPat = false) →
      instrGoF (span.length + fuel) true st (span ++ post)
        = (span ++ (instrGoF fuel true st post).1,
           (instrGoF fuel true st post).2) := by
  induction span with
  | nil =>
    intro fuel st post h
    simp
  | cons l span' ihs =>
    intro fuel st post h
    have harith : (l :: span').length + fuel = (span'.length + fuel) + 1 := by
      simp only [List.length_cons]
      omega
    rw [harith, List.cons_append]
    simp only [instrGoF]
    rw [instrStep_noc st (span' ++ post) (h l (by simp))]
    dsimp only
    rw [ihs fuel st post (fun x hx => h x (List.mem_cons_of_mem l hx))]
    simp

/-- C4 (amended): provided the `/*NOCOVER_START*/` line is reached at the
head of a loop iteration with suppression off — and not swallowed by a
preceding construct's copied brace segment — `instrument` registers no
coverage point for anything inside the suppressed span and copies its text
verbatim: the start line, every span line (none carrying the end marker),
and the end line are emitted unchanged, the registry state is passed
through untouched, and processing continues after the end marker from that
same state.  (Both failure modes outside this proviso are concrete in
`c4_counterexample`: a segment copy that swallows the start marker leaves
the flag unset and a construct inside the span gets registered, and
`remove_coverage` ignores the NOCOVER markers entirely.) -/
theorem c4_suppression (st : St) (sL eL : List Char)
    (span post : List (List Char))
    (hs : containsSub sL nocStartPat = true)
    (hspan : ∀ x ∈ span, containsSub x nocEndPat = false)
    (he1 : containsSub eL nocStartPat = false)
    (he2 : containsSub eL nocEndPat = true) :
    instrGo false st (sL :: span ++ eL :: post)
      = (sL :: span ++ eL :: (instrGo false st post).1,
         (instrGo false st post).2) := by
  unfold instrGo
  have hlen : (sL :: span ++ eL :: post).length
      = (span.length + (post.length + 1)) + 1 := by
    simp [List.length_append]
  rw [hlen, List.cons_append]
  simp only [instrGoF]
  rw [instrStep_nocStart false st (span ++ eL :: post) hs]
  dsimp only
  rw [instrGoF_noc_span span (post.length + 1) st (eL :: post) hspan]
  simp only [instrGoF]
  rw [instrStep_nocEnd true st post he1 he2]
  dsimp only
  simp

theorem c4_suppression_witness :
    instrGo false ⟨0, []⟩
        ("/*NOCOVER_START*/".data :: ["if (x) \x7b".data] ++
          "/*NOCOVER_END*/".data :: ["int g()\x7b".data, "  y();".data])
      = ("/*NOCOVER_START*/".data :: ["if (x) \x7b".data] ++
          "/*NOCOVER_END*/".data ::
            (instrGo false ⟨0, []⟩ ["int g()\x7b".data, "  y();".data]).1,
         (instrGo false ⟨0, []⟩ ["int g()\x7b".data, "  y();".data]).2) :=
  c4_suppression ⟨0, []⟩ _ _ _ _ (by decide)
    (by decide) (by decide) (by decide)

theorem instrGoF_zero_snd (noc : Bool) (st : St) (rem : List (List Char)) :
    (instrGoF 0 noc st rem).2 = st := by
  cases rem <;> rfl

/-- One loop iteration registers at most one coverage point. -/
theorem instrStep_points_le (noc : Bool) (st : St) (l : List Char)
    (ls : List (List Char)) :
    (instrStep noc st l ls).2.2.1.points.length ≤ st.points.length + 1 := by
  unfold instrStep
  split
  · simp
  split
  · simp
  split
  · simp
  split
  · dsimp only
    split
    · simp
    · simp
  split
  · simp
  split
  · rename_i k bk hk hbk
    dsimp only
    cases bk <;> simp [get_next_id]
  · split
    · rename_i ind lbl hcp
      dsimp only
      split
      · simp [get_next_id]
      · simp [get_next_id]
    · split
      · dsimp only
        simp [get_next_id]
      · simp

/-- A line matching the else-if pattern always dispatches to some
brace-seeking branch: either the function pattern claims it, or the
`else if` branch does. -/
theorem lineKind_some_of_elif {l : List Char} (h : elifSearch l = true) :
    ∃ bk, lineKind l = some bk := by
  unfold lineKind
  split
  · split
    · unfold kindNoFunc
      rw [h]
      exact ⟨BKind.elsif, rfl⟩
    · exact ⟨_, rfl⟩
  · unfold kindNoFunc
    rw [h]
    exact ⟨BKind.elsif, rfl⟩

/-- When the earlier copy branches do not fire and both a brace and a
construct kind are found, the iteration registers exactly one new id. -/
theorem instrStep_one_point {l : List Char} (st : St) (ls : List (List Char))
    (h1 : containsSub l nocStartPat = false)
    (h2 : containsSub l nocEndPat = false)
    (h3 : containsSub l hdrStartPat = false)
    (h4 : containsSub l coverPat = false)
    {k : Nat} {bk : BKind}
    (hk : find_opening_brace (l :: ls) = some k)
    (hbk : lineKind l = some bk) :
    ∃ cid, (instrStep false st l ls).2.2.1.points = st.points ++ [cid] := by
  unfold instrStep
  split
  · rename_i hc
    rw [h1] at hc
    exact absurd hc (by simp)
  split
  · rename_i hc
    rw [h2] at hc
    exact absurd hc (by simp)
  split
  · rename_i hc
    exact absurd hc (by simp)
  split
  · rename_i hc
    rw [h3] at hc
    exact absurd hc (by simp)
  split
  · rename_i hc
    rw [h4] at hc
    exact absurd hc (by simp)
  split
  · rename_i k2 bk2 hk2 hbk2
    dsimp only
    cases bk2 <;> exact ⟨_, rfl⟩
  · rename_i hnone
    exact absurd hbk (by exact fun hb => hnone k bk hk hb)

/-- C9 (amended): a one-line source containing an else-if construct yields
at most one coverage point — it is never counted as both an `if` point and
an `else` point — and exactly one point when the line contains an opening
brace and carries no NOCOVER/header/COVER text.  (With no brace in the
ten-line window it yields zero points, see `c9_counterexample`.) -/
theorem c9_else_if_single (l : List Char) (helif : elifSearch l = true) :
    (instrGo false ⟨0, []⟩ [l]).2.points.length ≤ 1 ∧
      (containsSub l nocStartPat = false → containsSub l nocEndPat = false →
       containsSub l hdrStartPat = false → containsSub l coverPat = false →
       l.contains '{' = true →
       (instrGo false ⟨0, []⟩ [l]).2.points.length = 1) := by
  have hgo : (instrGo false ⟨0, []⟩ [l]).2 = (instrStep false ⟨0, []⟩ l []).2.2.1 := by
    unfold instrGo
    simp only [List.length_cons, List.length_nil, Nat.zero_add, instrGoF]
    exact instrGoF_zero_snd _ _ _
  constructor
  · rw [hgo]
    have hle := instrStep_points_le false ⟨0, []⟩ l []
    simpa using hle
  · intro h1 h2 h3 h4 hbrace
    have hk : find_opening_brace [l] = some 0 := by
      simp [find_opening_brace, findBraceAux]
      simpa using hbrace
    obtain ⟨bk, hbk⟩ := lineKind_some_of_elif helif
    obtain ⟨cid, hcid⟩ := instrStep_one_point ⟨0, []⟩ [] h1 h2 h3 h4 hk hbk
    rw [hgo, hcid]
    simp

theorem c9_else_if_single_witness :
    (instrGo false ⟨0, []⟩ ["\x7d else if (x) \x7b".data]).2.points.length ≤ 1 ∧
    (instrGo false ⟨0, []⟩ ["\x7d else if (x) \x7b".data]).2.points.length = 1 :=
  ⟨(c9_else_if_single _ (by decide)).1,
   (c9_else_if_single _ (by decide)).2 (by decide) (by decide) (by decide)
     (by decide) (by decide)⟩

/-- Outside a NOCOVER span, a line carrying the header start marker begins
a verbatim block copy: the state is untouched and the emitted lines plus
the remaining lines are exactly the incoming lines, with the marker line
emitted first. -/
theorem instrStep_hdr_copy {l : List Char} (st : St) (ls : List (List Char))
    (h1 : containsSub l nocStartPat = false)
    (h2 : containsSub l nocEndPat = false)
    (h4 : containsSub l hdrStartPat = true) :
    (instrStep false st l ls).2.2.1 = st ∧
      (instrStep false st l ls).1 ++ (instrStep false st l ls).2.2.2 = l :: ls ∧
      (instrStep false st l ls).1.head? = some l := by
  unfold instrStep
  split
  · rename_i hc
    rw [h1] at hc
    exact absurd hc (by simp)
  split
  · rename_i hc
    rw [h2] at hc
    exact absurd hc (by simp)
  split
  · rename_i hc
    exact absurd hc (by simp)
  · dsimp only
    cases hpl : containsSub l hdrEndPat with
    | true =>
      have hpre0 : List.takeWhile (fun x => !containsSub x hdrEndPat) (l :: ls)
          = [] := by
        rw [List.takeWhile_cons]
        simp [hpl]
      rw [hpre0]
      simp only [List.length_nil, List.drop_zero]
      refine ⟨?_, ?_, ?_⟩ <;> simp
    | false =>
      have hpre1 : List.takeWhile (fun x => !containsSub x hdrEndPat) (l :: ls)
          = l :: List.takeWhile (fun x => !containsSub x hdrEndPat) ls := by
        rw [List.takeWhile_cons]
        simp [hpl]
      rw [hpre1]
      simp only [List.length_cons, List.drop_succ_cons]
      have hpre := List.prefix_iff_eq_append.mp
        (show List.takeWhile (fun x => !containsSub x hdrEndPat) ls <+: ls from
          List.takeWhile_prefix _)
      cases hdrop : List.drop
          (List.takeWhile (fun x => !containsSub x hdrEndPat) ls).length ls with
      | nil =>
        rw [hdrop, List.append_nil] at hpre
        refine ⟨rfl, ?_, rfl⟩
        rw [List.append_nil, hpre]
      | cons e rest' =>
        rw [hdrop] at hpre
        refine ⟨rfl, ?_, by simp⟩
        simp only [List.cons_append, List.append_assoc, List.singleton_append,
          List.nil_append]
        rw [hpre]

/-- A line already containing `COVER(`, reached outside a NOCOVER span and
not opening a header block, is passed through verbatim with no
registration. -/
theorem instrStep_cover {l : List Char} (st : St) (ls : List (List Char))
    (h1 : containsSub l nocStartPat = false)
    (h2 : containsSub l nocEndPat = false)
    (h3 : containsSub l hdrStartPat = false)
    (h4 : containsSub l coverPat = true) :
    instrStep false st l ls = ([l], false, st, ls) := by
  unfold instrStep
  simp [h1, h2, h3, h4]

/-- C10 (amended): a line containing `COVER(` is emitted verbatim as the
next output line with the registry state unchanged, whatever branch
handles it; and a line carrying the header start marker, reached outside a
NOCOVER span, starts a block copy that registers nothing and loses no
input line.  (Inside a NOCOVER span the block copy is never entered, see
`c10_counterexample`.) -/
theorem c10_verbatim (st : St) (l : List Char) (ls : List (List Char)) :
    (containsSub l coverPat = true →
       ∀ noc : Bool,
         (instrStep noc st l ls).2.2.1 = st ∧
         (instrStep noc st l ls).1 ++ (instrStep noc st l ls).2.2.2 = l :: ls ∧
         (instrStep noc st l ls).1.head? = some l) ∧
    (containsSub l nocStartPat = false → containsSub l nocEndPat = false →
     containsSub l hdrStartPat = true →
       (instrStep false st l ls).2.2.1 = st ∧
       (instrStep false st l ls).1 ++ (instrStep false st l ls).2.2.2 = l :: ls) := by
  constructor
  · intro hcov noc
    by_cases hs : containsSub l nocStartPat = true
    · rw [instrStep_nocStart noc st ls hs]
      exact ⟨rfl, rfl, rfl⟩
    · have hs' : containsSub l nocStartPat = false := by simpa using hs
      by_cases hne : containsSub l nocEndPat = true
      · rw [instrStep_nocEnd noc st ls hs' hne]
        exact ⟨rfl, rfl, rfl⟩
      · have hne' : containsSub l nocEndPat = false := by simpa using hne
        cases noc with
        | true =>
          rw [instrStep_noc st ls hne']
          exact ⟨rfl, rfl, rfl⟩
        | false =>
          by_cases hh : containsSub l hdrStartPat = true
          · exact instrStep_hdr_copy st ls hs' hne' hh
          · have hh' : containsSub l hdrStartPat = false := by simpa using hh
            rw [instrStep_cover st ls hs' hne' hh' hcov]
            exact ⟨rfl, rfl, rfl⟩
  · intro hs hne hh
    obtain ⟨ha, hb, hc⟩ := instrStep_hdr_copy st ls hs hne hh
    exact ⟨ha, hb⟩

theorem c10_verbatim_witness :
    ((instrStep false ⟨0, []⟩ ("x = 1; COVER(\"a\");".data) []).2.2.1 = ⟨0, []⟩ ∧
     (instrStep false ⟨0, []⟩ ("x = 1; COVER(\"a\");".data) []).1 ++
         (instrStep false ⟨0, []⟩ ("x = 1; COVER(\"a\");".data) []).2.2.2 =
       [("x = 1; COVER(\"a\");".data)] ∧
     (instrStep false ⟨0, []⟩ ("x = 1; COVER(\"a\");".data) []).1.head? =
       some ("x = 1; COVER(\"a\");".data)) ∧
    ((instrStep false ⟨0, []⟩ ("// ===== COVERAGE TRACKING CODE =====".data)
        ["int x;".data]).2.2.1 = ⟨0, []⟩ ∧
     (instrStep false ⟨0, []⟩ ("// ===== COVERAGE TRACKING CODE =====".data)
         ["int x;".data]).1 ++
       (instrStep false ⟨0, []⟩ ("// ===== COVERAGE TRACKING CODE =====".data)
         ["int x;".data]).2.2.2 =
       ("// ===== COVERAGE TRACKING CODE =====".data) :: ["int x;".data]) :=
  ⟨(c10_verbatim ⟨0, []⟩ ("x = 1; COVER(\"a\");".data) []).1 (by decide) false,
   (c10_verbatim ⟨0, []⟩ ("// ===== COVERAGE TRACKING CODE =====".data)
       ["int x;".data]).2 (by decide) (by decide) (by decide)⟩
